import Mathlib

/-!
Rodent III — UCI control layer (`src/uci.cpp`)

A shallow embedding of the tokenizer (`ParseToken`), the time-budget planner
(`BulletCorrection`, `SetMoveTime`), `ParseGo` (parameters, book, search and
aggregation), the timer task, `ParseMoves`, `ParsePosition`, one round of
`UciLoop` and the depth of `Bench`, with the properties the specification
states about them.

Conventions of the embedding.

* C `int` values are `Int`.  `BulletCorrection`, `SetMoveTime` and
  `ParseGoParams` compute with exact integers; `BulletCorrection32`,
  `SetMoveTime32` and `ParseGoParams32` are the same functions in the
  arithmetic of the 32-bit `int` (wrap-around, trapping division).
* C `/` on `int` truncates toward zero: `Int.tdiv`.  A division that has no
  result (divisor zero, and in `int` arithmetic `INT_MIN / -1`) makes the
  embedded function return `none`.
* A C string is the `List Char` of its characters before the terminating NUL.
  `UciStep`, `ParsePosition` and the token loops take strings of any length;
  `UciLoopRound`, `fenLoopBuf` and `ParsePositionBuf` take the sizes of the
  arrays `token[80]` and `fen[80]` into account.
-/

namespace Rodent

/-! ## Time budget planner -/

/-- Modelled from the spec: the macro `Min` of `rodent.h` (the header is not
part of the sources at hand); the spec writes `min(1000, base/10)`. -/
def Min (x y : Int) : Int := if x < y then x else y

/-- `int BulletCorrection(int time)`. -/
def BulletCorrection (time : Int) : Int :=
  if time < 200 then (time * 23).tdiv 32
  else if time < 400 then (time * 26).tdiv 32
  else if time < 1200 then (time * 29).tdiv 32
  else time

/-- C integer division `a / b`: truncating, and without a result when the
divisor is zero. -/
def cdiv (a b : Int) : Option Int :=
  if b = 0 then none else some (a.tdiv b)

/-- `void SetMoveTime(int base, int inc, int movestogo)`.

The function reads the global `Par.time_percentage` and updates the global
`move_time`; here both are explicit: the arguments `time_percentage` and
`move_time` are the values on entry, the result is `move_time` on exit
(`none` when the division by `movestogo` has a zero divisor). -/
def SetMoveTime (time_percentage move_time base inc movestogo : Int) : Option Int :=
  if base ≥ 0 then do
    let base := if movestogo = 1 then base - Min 1000 (base.tdiv 10) else base
    let move_time ← cdiv (base + inc * (movestogo - 1)) movestogo
    -- make a percentage correction to playing speed (unless too risky)
    let move_time :=
      if 2 * move_time > base then (move_time * time_percentage).tdiv 100 else move_time
    -- ensure that our limit does not exceed total time available
    let move_time := if move_time > base then base else move_time
    -- safeguard against a lag
    let move_time := move_time - 10
    -- ensure that we have non-negative time
    let move_time := if move_time < 0 then 0 else move_time
    -- assign less time per move on extremely short time controls
    some (BulletCorrection move_time)
  else
    some move_time

/-- The six steps of the planner as the specification lists them (§4.2),
`P` being the configured `time_percentage`. -/
def plannerSteps (P base inc movestogo : Int) : Int :=
  let base1 := if movestogo = 1 then base - min 1000 (base.tdiv 10) else base
  let raw2 := (base1 + inc * (movestogo - 1)).tdiv movestogo
  let raw3 := if 2 * raw2 > base1 then (raw2 * P).tdiv 100 else raw2
  let raw4 := min raw3 base1
  let raw5 := max (raw4 - 10) 0
  BulletCorrection raw5

/-- The clock left after the emergency reserve of the last move before the
time control: `base - min(1000, base/10)`. -/
def reservedBase (base : Int) : Int := base - min 1000 (base.tdiv 10)

/-! ## Tokens and numbers -/

/-- `const char *ParseToken(const char *string, char *token)`: skips the
blanks in front, copies the characters up to the next blank or the end of the
string into `token`, and returns the rest of the string.  The result is the
pair `(token, returned pointer)`. -/
def ParseToken (string : List Char) : List Char × List Char :=
  let string := string.dropWhile (fun c => c == ' ')
  (string.takeWhile (fun c => c != ' '), string.dropWhile (fun c => c != ' '))

/-- The white space `atoi` skips (`isspace` in the C locale). -/
def isspace (c : Char) : Bool :=
  c == ' ' || c == '\t' || c == '\n' || c == '\x0b' || c == '\x0c' || c == '\r'

/-- The value of the leading decimal digits of a string, continuing from
`acc`. -/
def atoiDigits (acc : Nat) : List Char → Nat
  | [] => acc
  | c :: cs => if c.isDigit then atoiDigits (acc * 10 + (c.toNat - 48)) cs else acc

/-- `atoi` of the C library: white space, an optional sign, then decimal
digits; a string that starts with none of these has the value 0. -/
def atoi (s : List Char) : Int :=
  match s.dropWhile isspace with
  | '-' :: cs => -(atoiDigits 0 cs : Int)
  | '+' :: cs => (atoiDigits 0 cs : Int)
  | cs => (atoiDigits 0 cs : Int)

/-! ## The parameter stage of `ParseGo` -/

/-- The side to move, `p->side`. -/
inductive Side
  | WC
  | BC
  deriving DecidableEq, Repr

/-- The variables `ParseGo` sets while it reads the parameters of `go`: the
globals `move_time`, `move_nodes`, `search_depth`, `Glob.pondering`,
`Par.shut_up` and the locals of the function. -/
structure GoVars where
  move_time : Int
  move_nodes : Int
  pondering : Bool
  wtime : Int
  btime : Int
  winc : Int
  binc : Int
  movestogo : Int
  strict_time : Int
  search_depth : Int
  shut_up : Bool
  deriving DecidableEq, Repr

/-- The assignments at the head of `ParseGo`. -/
def goInit : GoVars :=
  { move_time := -1, move_nodes := 0, pondering := false, wtime := -1, btime := -1,
    winc := 0, binc := 0, movestogo := 40, strict_time := 0, search_depth := 64,
    shut_up := false }

def kwPonder : List Char := ['p', 'o', 'n', 'd', 'e', 'r']
def kwDepth : List Char := ['d', 'e', 'p', 't', 'h']
def kwMovetime : List Char := ['m', 'o', 'v', 'e', 't', 'i', 'm', 'e']
def kwNodes : List Char := ['n', 'o', 'd', 'e', 's']
def kwWtime : List Char := ['w', 't', 'i', 'm', 'e']
def kwBtime : List Char := ['b', 't', 'i', 'm', 'e']
def kwWinc : List Char := ['w', 'i', 'n', 'c']
def kwBinc : List Char := ['b', 'i', 'n', 'c']
def kwMovestogo : List Char := ['m', 'o', 'v', 'e', 's', 't', 'o', 'g', 'o']

/-- The `for (;;)` loop of `ParseGo` that reads the parameters.  Each round
reads one token and stops at the empty token; `fuel` bounds the number of
rounds (`none` when it is used up, which `ParseGoLoop_total` excludes for
`fuel` above the length of the line). -/
def ParseGoLoop : Nat → GoVars → List Char → Option GoVars
  | 0, _, _ => none
  | fuel + 1, v, ptr =>
    let (token, ptr) := ParseToken ptr
    if token = [] then some v
    else if token = kwPonder then
      ParseGoLoop fuel { v with pondering := true } ptr
    else if token = kwDepth then
      let (token, ptr) := ParseToken ptr
      ParseGoLoop fuel { v with search_depth := atoi token, strict_time := 1 } ptr
    else if token = kwMovetime then
      let (token, ptr) := ParseToken ptr
      ParseGoLoop fuel { v with move_time := atoi token, strict_time := 1 } ptr
    else if token = kwNodes then
      let (token, ptr) := ParseToken ptr
      ParseGoLoop fuel
        { v with move_nodes := atoi token, move_time := 99999999, strict_time := 1 } ptr
    else if token = kwWtime then
      let (token, ptr) := ParseToken ptr
      ParseGoLoop fuel { v with wtime := atoi token } ptr
    else if token = kwBtime then
      let (token, ptr) := ParseToken ptr
      ParseGoLoop fuel { v with btime := atoi token } ptr
    else if token = kwWinc then
      let (token, ptr) := ParseToken ptr
      ParseGoLoop fuel { v with winc := atoi token } ptr
    else if token = kwBinc then
      let (token, ptr) := ParseToken ptr
      ParseGoLoop fuel { v with binc := atoi token } ptr
    else if token = kwMovestogo then
      let (token, ptr) := ParseToken ptr
      ParseGoLoop fuel { v with movestogo := atoi token } ptr
    else ParseGoLoop fuel v ptr

/-- The "set move time" step of `ParseGo`: without a strict parameter the
planner runs on the clock of the side to move. -/
def goSetMoveTime (side : Side) (time_percentage : Int) (v : GoVars) : Option GoVars :=
  if v.strict_time = 0 then do
    let base := if side = Side.WC then v.wtime else v.btime
    let inc := if side = Side.WC then v.winc else v.binc
    let move_time ← SetMoveTime time_percentage v.move_time base inc v.movestogo
    some { v with move_time := move_time }
  else
    some v

/-- `ParseGo` up to and including the "set move time" step (the head of the
function, the parameter loop, and the call of `SetMoveTime`): the variables
after that step, or `none` when the step has no result. -/
def ParseGoParams (side : Side) (time_percentage : Int) (ptr : List Char) : Option GoVars :=
  (ParseGoLoop (ptr.length + 1) goInit ptr).bind (goSetMoveTime side time_percentage)

/-! ## The grammar of a `go` line

`go [ponder] [depth N] [movetime N] [nodes N] [wtime N] [btime N] [winc N]
[binc N] [movestogo N]` (spec §6).  The definitions of this section describe
the lines; they are what the claims on `ParseGo` quantify over. -/

/-- The parameter names of `go` that take a value. -/
inductive GoKey
  | depth
  | movetime
  | nodes
  | wtime
  | btime
  | winc
  | binc
  | movestogo
  deriving DecidableEq, Repr

/-- The spelling of a parameter name. -/
def GoKey.text : GoKey → List Char
  | .depth => kwDepth
  | .movetime => kwMovetime
  | .nodes => kwNodes
  | .wtime => kwWtime
  | .btime => kwBtime
  | .winc => kwWinc
  | .binc => kwBinc
  | .movestogo => kwMovestogo

/-- One item of a `go` line: a word standing alone (`ponder`, or a word that
is no parameter name), or a parameter name with the token after it. -/
inductive GoArg
  | lone (t : List Char)
  | param (k : GoKey) (value : List Char)
  deriving DecidableEq, Repr

/-- The parameter name of an item, if it is a parameter. -/
def GoArg.key : GoArg → Option GoKey
  | .lone _ => none
  | .param k _ => some k

/-- The parameters that force strict mode: `depth`, `movetime`, `nodes`. -/
def GoKey.isStrict : GoKey → Bool
  | .depth => true
  | .movetime => true
  | .nodes => true
  | _ => false

/-- The clock parameters: `wtime`, `btime`, `winc`, `binc`, `movestogo`. -/
def GoKey.isClock (k : GoKey) : Bool := !k.isStrict

/-- An item is `depth`, `movetime` or `nodes` with its value. -/
def GoArg.isStrict : GoArg → Bool
  | .lone _ => false
  | .param k _ => k.isStrict

/-- A run of `n` blanks. -/
def blanks (n : Nat) : List Char := List.replicate n ' '

/-- A word: at least one character, none of them a blank. -/
def IsWord (t : List Char) : Prop := t ≠ [] ∧ ∀ c ∈ t, c ≠ ' '

/-- A string starts with a blank or is empty. -/
def BlankStart (r : List Char) : Prop := ∀ c r2, r = c :: r2 → c = ' '

/-- `GoLine args line`: the text `line` after the command word `go` spells
the items `args`, in their order, each preceded by one or more blanks; the
line may end in blanks, and its last parameter name may lack a value (its
value token is then empty). -/
inductive GoLine : List GoArg → List Char → Prop
  | done (n : Nat) : GoLine [] (blanks n)
  | lone (n : Nat) (t : List Char) (args : List GoArg) (rest : List Char) :
      IsWord t → (∀ k : GoKey, t ≠ k.text) → GoLine args rest →
      GoLine (GoArg.lone t :: args) (blanks (n + 1) ++ t ++ rest)
  | param (n m : Nat) (k : GoKey) (value : List Char) (args : List GoArg)
      (rest : List Char) :
      IsWord value → GoLine args rest →
      GoLine (GoArg.param k value :: args)
        (blanks (n + 1) ++ k.text ++ blanks (m + 1) ++ value ++ rest)
  | last (n m : Nat) (k : GoKey) :
      GoLine [GoArg.param k []] (blanks (n + 1) ++ k.text ++ blanks m)

/-- What one item does to the variables of `ParseGo` (one round of the
parameter loop). -/
def applyArg (v : GoVars) : GoArg → GoVars
  | .lone t => if t = kwPonder then { v with pondering := true } else v
  | .param .depth s => { v with search_depth := atoi s, strict_time := 1 }
  | .param .movetime s => { v with move_time := atoi s, strict_time := 1 }
  | .param .nodes s => { v with move_nodes := atoi s, move_time := 99999999, strict_time := 1 }
  | .param .wtime s => { v with wtime := atoi s }
  | .param .btime s => { v with btime := atoi s }
  | .param .winc s => { v with winc := atoi s }
  | .param .binc s => { v with binc := atoi s }
  | .param .movestogo s => { v with movestogo := atoi s }

/-- The number the line gives for the parameter `k`: the value of its last
occurrence, read by `atoi`, and `d` when the line does not have `k`. -/
def lastValue (k : GoKey) (d : Int) : List GoArg → Int
  | [] => d
  | .param k2 s :: rest => lastValue k (if k2 = k then atoi s else d) rest
  | .lone _ :: rest => lastValue k d rest

/-- The clock parameter of the side to move. -/
def Side.timeKey : Side → GoKey
  | .WC => .wtime
  | .BC => .btime

/-- The increment parameter of the side to move. -/
def Side.incKey : Side → GoKey
  | .WC => .winc
  | .BC => .binc

/-- Two lists of items differ only in the values given to clock parameters. -/
def ClockVariant (args1 args2 : List GoArg) : Prop :=
  List.Forall₂
    (fun a b => a = b ∨ ∃ k s1 s2, k.isClock = true ∧ a = GoArg.param k s1 ∧ b = GoArg.param k s2)
    args1 args2

/-! ## The second half of `ParseGo`: book, search, aggregation

The build with `USE_THREADS` is the one embedded.  The book sources, the
engines and the timer are other components; what `ParseGo` does with them is
recorded as the sequence of its calls and outputs. -/

/-- The calls and outputs of `ParseGo` after the budget is set, in the order
of the source: `Glob.ClearData()`, `Par.InitAsymmetric(p)`, the
`info string bd .. mfs ..` line, the query of each book source, the
`bestmove` line of a book move, the start of the think thread of engine `i`,
the start of the timer thread, the wait for engine `i`, the join of the
timer, and `ExtractMove(best_pv)` (`best_pv` given by the index of the
engine whose `pv` it points to, `none` when it was never assigned). -/
inductive GoEvent
  | ClearData
  | InitAsymmetric
  | info (book_depth moves_from_start : Int)
  | GuideBook
  | MainBook
  | InternalBook
  | bestmove (move : Int)
  | StartThinkThread (i : Nat)
  | timerStart
  | WaitThinkThread (i : Nat)
  | timerJoin
  | ExtractMove (best_pv : Option Nat)
  deriving DecidableEq, Repr

/-- The event is the query of a book source. -/
def GoEvent.isBook : GoEvent → Bool
  | .GuideBook => true
  | .MainBook => true
  | .InternalBook => true
  | _ => false

/-- The event belongs to the search: a think thread, the timer, or the
emission of a searched move. -/
def GoEvent.isSearch : GoEvent → Bool
  | .StartThinkThread _ => true
  | .timerStart => true
  | .WaitThinkThread _ => true
  | .timerJoin => true
  | .ExtractMove _ => true
  | _ => false

/-- What the second half of `ParseGo` reads: the configuration (`Par.use_book`,
`Par.book_depth`), the session counters (`Glob.moves_from_start`,
`Glob.should_clear`), the move each book source returns for the position when
it is asked (0 for no move), and `dp_completed` of every engine of
`enginesArray`, in the order of the list, once all threads are joined. -/
structure GoEnv where
  use_book : Bool
  book_depth : Int
  moves_from_start : Int
  should_clear : Bool
  guide : Int
  main : Int
  internal : Int
  dp_completed : List Int
  deriving DecidableEq, Repr

/-- The loop `for (auto& engine: enginesArray) if (best_depth <
engine.dp_completed) ...` over the remaining engines; `i` is the index of the
first of them, the pair is `(best_depth, best_pv)`. -/
def bestLoop : List Int → Nat → Int × Option Nat → Int × Option Nat
  | [], _, best => best
  | dp_completed :: rest, i, (best_depth, best_pv) =>
    if best_depth < dp_completed then bestLoop rest (i + 1) (dp_completed, some i)
    else bestLoop rest (i + 1) (best_depth, best_pv)

/-- The aggregation at the end of `ParseGo`: `best_pv` after the loop, started
with `best_depth = -1` and `best_pv` unassigned. -/
def selectBest (dp_completed : List Int) : Option Nat :=
  (bestLoop dp_completed 0 (-1, none)).2

/-- The start of `ParseGo`'s second half: the globals are reset
(`Glob.abort_search = false` among them), then `Glob.ClearData()` if
`Glob.should_clear`, then `Par.InitAsymmetric(p)`. -/
def goHead (env : GoEnv) : List GoEvent :=
  (if env.should_clear then [GoEvent.ClearData] else []) ++ [GoEvent.InitAsymmetric]

/-- The search of `ParseGo`: every engine's think thread is started, then the
timer thread, every engine is waited for, the timer is joined, and the `pv`
of the selected engine is emitted. -/
def goSearch (env : GoEnv) : List GoEvent :=
  (List.range env.dp_completed.length).map GoEvent.StartThinkThread
    ++ [GoEvent.timerStart]
    ++ (List.range env.dp_completed.length).map GoEvent.WaitThinkThread
    ++ [GoEvent.timerJoin]
    ++ [GoEvent.ExtractMove (selectBest env.dp_completed)]

/-- The book part of `ParseGo`, entered when the gate is open, and what
follows it: the sources are asked while `pvb` is 0; a non-zero `pvb` is
printed as `bestmove` and the function returns, otherwise the search runs. -/
def goBook (env : GoEnv) : List GoEvent :=
  let asked := [GoEvent.info env.book_depth env.moves_from_start, GoEvent.GuideBook]
  let pvb := env.guide
  let (pvb, asked) := if pvb = 0 then (env.main, asked ++ [GoEvent.MainBook]) else (pvb, asked)
  let (pvb, asked) :=
    if pvb = 0 then (env.internal, asked ++ [GoEvent.InternalBook]) else (pvb, asked)
  if pvb ≠ 0 then asked ++ [GoEvent.bestmove pvb]
  else asked ++ goSearch env

/-- `ParseGo` from "set global variables" to its end. -/
def ParseGoTail (env : GoEnv) : List GoEvent :=
  if env.use_book && decide (env.book_depth ≥ env.moves_from_start) then
    goHead env ++ goBook env
  else
    goHead env ++ goSearch env

/-- `void ParseGo(POS *p, const char *ptr)`: the parameter stage, then the
second half; `none` when the parameter stage has no result. -/
def ParseGo (side : Side) (time_percentage : Int) (env : GoEnv) (ptr : List Char) :
    Option (GoVars × List GoEvent) :=
  (ParseGoParams side time_percentage ptr).map (fun v => (v, ParseGoTail env))

/-! ## The timer task and the search episode -/

/-- Where the timer task stands: before its first statement, at the test of
the `while`, at the `sleep_for`, at the `CheckTimeout` line, or returned. -/
inductive TimerPc
  | entry
  | test
  | sleep
  | poll
  | returned
  deriving DecidableEq, Repr

/-- The shared flag `Glob.abort_search` and the place of the timer task. -/
structure Episode where
  abort_search : Bool
  pc : TimerPc
  deriving DecidableEq, Repr

/-- Modelled from the spec: `CheckTimeout` is not part of the sources at hand;
the spec has the timer check "whether the elapsed time exceeds the budget and,
if so, set the token".  `expired` says whether the budget is exceeded at this
call. -/
def CheckTimeout (expired : Bool) (abort_search : Bool) : Bool :=
  if expired then true else abort_search

/-- One step of `void timer_task()`. -/
def timer_task (is_tuning expired : Bool) (s : Episode) : Episode :=
  match s.pc with
  | .entry => { abort_search := false, pc := .test }
  | .test => if s.abort_search == false then { s with pc := .sleep } else { s with pc := .returned }
  | .sleep => { s with pc := .poll }
  | .poll =>
    { abort_search := if !is_tuning then CheckTimeout expired s.abort_search else s.abort_search,
      pc := .test }
  | .returned => s

/-- Modelled from the spec: the search of a worker (`Think`) is not part of
the sources at hand; the spec has every worker observe the token and never
reset it.  A step of a worker leaves the flag, or raises it (`raises`) when
the worker stops the search itself. -/
def workerStep (raises : Bool) (s : Episode) : Episode :=
  { s with abort_search := s.abort_search || raises }

/-- A step of one task of the episode. -/
inductive EpisodeAction
  | timer (expired : Bool)
  | worker (i : Nat) (raises : Bool)
  deriving DecidableEq, Repr

/-- The step of the episode an action makes. -/
def episodeStep (is_tuning : Bool) (s : Episode) : EpisodeAction → Episode
  | .timer expired => timer_task is_tuning expired s
  | .worker _ raises => workerStep raises s

/-- The episode after a sequence of steps of its tasks, in any interleaving. -/
def episodeRun (is_tuning : Bool) (s : Episode) (acts : List EpisodeAction) : Episode :=
  acts.foldl (episodeStep is_tuning) s

/-- The episode when `ParseGo` has cleared `Glob.abort_search` and started the
threads: the flag is false, the timer task has not run yet. -/
def episodeStart : Episode := { abort_search := false, pc := .entry }

/-! ## The session position, `ParseMoves` and `ParsePosition` -/

/-- `POS`: the two fields `ParseMoves` writes, and the rest of the position
(`board`), which this layer does not look into. -/
structure POS (β : Type) where
  rev_moves : Int
  head : Int
  board : β

/-- The position functions and the constant this layer calls; they belong to
other components and are taken as parameters: `p->DoMove(move, u)`,
`StrToMove(p, token)`, `SetPosition(p, epd)` and the string `START_POS`. -/
structure Chess (β : Type) where
  DoMove : POS β → Int → POS β
  StrToMove : POS β → List Char → Int
  SetPosition : POS β → List Char → POS β
  START_POS : List Char

/-- The session state the `position` and `step` commands change: the position
`p` of `UciLoop` and the counter `Glob.moves_from_start`. -/
structure Session (β : Type) where
  p : POS β
  moves_from_start : Int

def kwFen : List Char := ['f', 'e', 'n']
def kwMoves : List Char := ['m', 'o', 'v', 'e', 's']
def kwStartpos : List Char := ['s', 't', 'a', 'r', 't', 'p', 'o', 's']

/-- The `for (;;)` loop of `ParseMoves`; `fuel` bounds the number of rounds. -/
def ParseMovesLoop {β : Type} (c : Chess β) : Nat → Session β → List Char → Option (Session β)
  | 0, _, _ => none
  | fuel + 1, s, ptr =>
    -- Get next move to parse
    let (token, ptr) := ParseToken ptr
    -- No more moves!
    if token = [] then some s
    else
      let p := c.DoMove s.p (c.StrToMove s.p token)
      let moves_from_start := s.moves_from_start + 1
      -- We won't be taking back moves beyond this point:
      let p := if p.rev_moves = 0 then { p with head := 0 } else p
      ParseMovesLoop c fuel { p := p, moves_from_start := moves_from_start } ptr

/-- `void ParseMoves(POS *p, const char *ptr)`. -/
def ParseMoves {β : Type} (c : Chess β) (s : Session β) (ptr : List Char) : Option (Session β) :=
  ParseMovesLoop c (ptr.length + 1) s ptr

/-- The `for (;;)` loop of `ParsePosition` that collects the FEN: the result
is `(fen, token, ptr)` at the `break`; `fuel` bounds the number of rounds. -/
def fenLoop : Nat → List Char → List Char → Option (List Char × List Char × List Char)
  | 0, _, _ => none
  | fuel + 1, fen, ptr =>
    let (token, ptr) := ParseToken ptr
    if token = [] ∨ token = kwMoves then some (fen, token, ptr)
    else fenLoop fuel (fen ++ token ++ [' ']) ptr

/-- `void ParsePosition(POS *p, const char *ptr)`. -/
def ParsePosition {β : Type} (c : Chess β) (s : Session β) (ptr : List Char) :
    Option (Session β) :=
  let (token, ptr) := ParseToken ptr
  if token = kwFen then
    match fenLoop (ptr.length + 1) [] ptr with
    | none => none
    | some (fen, token, ptr) =>
      let s := { s with p := c.SetPosition s.p fen }
      if token = kwMoves then ParseMoves c s ptr else some s
  else
    let (token, ptr) := ParseToken ptr
    let s := { s with p := c.SetPosition s.p c.START_POS }
    if token = kwMoves then ParseMoves c s ptr else some s

/-! ## The grammar of `position` and `step` lines -/

/-- `WordLine ws line`: the text `line` spells the words `ws`, in their
order, each preceded by one or more blanks; the line may end in blanks. -/
inductive WordLine : List (List Char) → List Char → Prop
  | done (n : Nat) : WordLine [] (blanks n)
  | word (n : Nat) (w : List Char) (ws : List (List Char)) (rest : List Char) :
      IsWord w → WordLine ws rest → WordLine (w :: ws) (blanks (n + 1) ++ w ++ rest)

/-- What `ParseMoves` does with one move text (one round of its loop). -/
def playMove {β : Type} (c : Chess β) (s : Session β) (m : List Char) : Session β :=
  let p := c.DoMove s.p (c.StrToMove s.p m)
  { p := if p.rev_moves = 0 then { p with head := 0 } else p,
    moves_from_start := s.moves_from_start + 1 }

/-- A stand-in for the position functions, for the examples: a move is the
number its text reads as, `DoMove` logs the move on the board, pushes one
history entry and treats the even moves as irreversible; `SetPosition` starts
a new log with the length of the position string. -/
def logChess : Chess (List Int) :=
  { DoMove := fun p m =>
      { rev_moves := if m % 2 = 0 then 0 else p.rev_moves + 1, head := p.head + 1,
        board := p.board ++ [m] },
    StrToMove := fun _ token => atoi token,
    SetPosition := fun _ epd => { rev_moves := 0, head := 0, board := [epd.length] },
    START_POS := "rnbqkbnr/pppppppp/8/8/8/8/PPPPPPPP/RNBQKBNR w KQkq -".toList }

/-- A session to start the examples from. -/
def logSession : Session (List Int) :=
  { p := { rev_moves := 3, head := 3, board := [] }, moves_from_start := 0 }

/-! ## One round of `UciLoop` and the `bench` command

The build without `USE_TUNING` is the one embedded (no `tune` command). -/

/-- The state `UciLoop` works on: the two options it sets itself from the raw
line (`Par.fl_weakening`, `Par.use_book`), the flag `Glob.is_console`, and
everything else (`more`: the position, the other options, the output written
so far, ...), which only the functions it calls change. -/
structure UciWorld (σ : Type) where
  fl_weakening : Bool
  use_book : Bool
  is_console : Bool
  more : σ

/-- The functions `UciLoop` calls, taken as parameters: each may change the
whole state. -/
structure UciCalls (σ : Type) where
  printf : String → UciWorld σ → UciWorld σ
  PrintUciOptions : UciWorld σ → UciWorld σ
  ClearTrans : UciWorld σ → UciWorld σ
  ClearData : UciWorld σ → UciWorld σ
  ParseSetoption : List Char → UciWorld σ → UciWorld σ
  ParsePosition : List Char → UciWorld σ → UciWorld σ
  ParseGo : List Char → UciWorld σ → UciWorld σ
  PrintBoard : UciWorld σ → UciWorld σ
  ParseMoves : List Char → UciWorld σ → UciWorld σ
  Bench : Int → UciWorld σ → UciWorld σ

/-- How a round of the loop ends: the loop goes on, or `exit(0)` is called. -/
inductive UciOutcome (σ : Type)
  | next (w : UciWorld σ)
  | exit (w : UciWorld σ)

/-- `strstr(haystack, needle) != 0`: the needle occurs in the haystack. -/
def strstr : List Char → List Char → Bool
  | [], needle => needle.isEmpty
  | c :: cs, needle => needle.isPrefixOf (c :: cs) || strstr cs needle

def cmdUci : List Char := "uci".toList
def cmdUcinewgame : List Char := "ucinewgame".toList
def cmdIsready : List Char := "isready".toList
def cmdSetoption : List Char := "setoption".toList
def cmdSo : List Char := "so".toList
def cmdPosition : List Char := "position".toList
def cmdGo : List Char := "go".toList
def cmdPrint : List Char := "print".toList
def cmdStep : List Char := "step".toList
def cmdBench : List Char := "bench".toList
def cmdQuit : List Char := "quit".toList

/-- The recognized command words. -/
def commandWords : List (List Char) :=
  [cmdUci, cmdUcinewgame, cmdIsready, cmdSetoption, cmdSo, cmdPosition, cmdGo, cmdPrint,
    cmdStep, cmdBench, cmdQuit]

def optLimitStrength : List Char := "setoption name UCI_LimitStrength value".toList
def optLimitStrengthLower : List Char := "setoption name uci_limitstrength value".toList
def optUseBook : List Char := "setoption name UseBook value".toList
def optUseBookLower : List Char := "setoption name usebook value".toList
def valueTrue : List Char := "value true".toList

/-- The four raw substring tests of `UciLoop` on the whole line, made before
the command word is looked at. -/
def rawOptions {σ : Type} (command : List Char) (w : UciWorld σ) : UciWorld σ :=
  -- boolean option: strength limit
  let w := if strstr command optLimitStrength then
    { w with fl_weakening := strstr command valueTrue } else w
  let w := if strstr command optLimitStrengthLower then
    { w with fl_weakening := strstr command valueTrue } else w
  -- boolean option: opening book usage
  let w := if strstr command optUseBook then
    { w with use_book := strstr command valueTrue } else w
  let w := if strstr command optUseBookLower then
    { w with use_book := strstr command valueTrue } else w
  w

/-- One round of the `for (;;)` loop of `UciLoop` on the line `command` that
`ReadLine` has read. -/
def UciStep {σ : Type} (c : UciCalls σ) (command : List Char) (w : UciWorld σ) :
    UciOutcome σ :=
  let (token, ptr) := ParseToken command
  let w := rawOptions command w
  if token = cmdUci then
    let w := c.printf "id name Rodent III 0.196\n" w
    let w := { w with is_console := false }
    let w := c.printf "id author Pawel Koziol (based on Sungorus 1.4 by Pablo Vazquez)\n" w
    let w := c.PrintUciOptions w
    .next (c.printf "uciok\n" w)
  else if token = cmdUcinewgame then
    .next (c.ClearData (c.ClearTrans w))
  else if token = cmdIsready then
    .next (c.printf "readyok\n" w)
  else if token = cmdSetoption then
    .next (c.ParseSetoption ptr w)
  else if token = cmdSo then
    .next (c.ParseSetoption ptr w)
  else if token = cmdPosition then
    .next (c.ParsePosition ptr w)
  else if token = cmdGo then
    .next (c.ParseGo ptr w)
  else if token = cmdPrint then
    .next (c.PrintBoard w)
  else if token = cmdStep then
    .next (c.ParseMoves ptr w)
  else if token = cmdBench then
    let (token, _) := ParseToken ptr
    .next (c.Bench (atoi token) w)
  else if token = cmdQuit then
    .exit w
  else
    .next w

/-- The state after a round, however the round ends. -/
def UciOutcome.world {σ : Type} : UciOutcome σ → UciWorld σ
  | .next w => w
  | .exit w => w

/-- A stand-in for the functions `UciLoop` calls, for the examples: each
writes its name to a log, which is the rest of the state. -/
def logCalls : UciCalls (List String) :=
  { printf := fun text w => { w with more := w.more ++ [text] },
    PrintUciOptions := fun w => { w with more := w.more ++ ["PrintUciOptions"] },
    ClearTrans := fun w => { w with more := w.more ++ ["ClearTrans"] },
    ClearData := fun w => { w with more := w.more ++ ["ClearData"] },
    ParseSetoption := fun _ w => { w with more := w.more ++ ["ParseSetoption"] },
    ParsePosition := fun _ w => { w with more := w.more ++ ["ParsePosition"] },
    ParseGo := fun _ w => { w with more := w.more ++ ["ParseGo"] },
    PrintBoard := fun w => { w with more := w.more ++ ["PrintBoard"] },
    ParseMoves := fun _ w => { w with more := w.more ++ ["ParseMoves"] },
    Bench := fun _ w => { w with more := w.more ++ ["Bench"] } }

/-- A state to start the examples from: both options off, nothing logged. -/
def logWorld : UciWorld (List String) :=
  { fl_weakening := false, use_book := false, is_console := true, more := [] }

/-- `void cEngine::Bench(int depth)`, as far as the depth goes: the value of
`depth` after the default is applied, which the function prints and assigns
to `search_depth` before it searches the test positions. -/
def cEngine.Bench (depth : Int) : Int :=
  if depth = 0 then 8 else depth

/-- The depth of the benchmark the `bench` command runs, `ptr` being the line
after the command word: `Bench(atoi(token))` on the next token. -/
def benchDepth (ptr : List Char) : Int :=
  cEngine.Bench (atoi (ParseToken ptr).1)

/-! ## The planner in the arithmetic of `int`

`BulletCorrection` and `SetMoveTime` above compute with exact integers.  The
program computes with the 32-bit `int`: the definitions of this section are
the same two functions with every sum, difference and product reduced to that
range (two's complement wrap-around, which is what the compiled program
computes where C leaves signed overflow undefined) and with a division that
has no result for the divisor 0 and for `INT_MIN / -1`, the two cases in which
the machine division traps.  Arguments are `int` values. -/

/-- The least value of `int`. -/
def INT_MIN : Int := -2147483648

/-- The greatest value of `int`. -/
def INT_MAX : Int := 2147483647

/-- The `int` a result is stored as: the value modulo 2^32 in the range
`INT_MIN .. INT_MAX`. -/
def wrap32 (x : Int) : Int := (x + 2147483648) % 4294967296 - 2147483648

/-- C integer division `a / b` on `int`: truncating, and without a result
(the program is killed) when the divisor is zero or the quotient is
`INT_MIN / -1`. -/
def cdiv32 (a b : Int) : Option Int :=
  if b = 0 ∨ (a = INT_MIN ∧ b = -1) then none else some (a.tdiv b)

/-- `int BulletCorrection(int time)` in `int` arithmetic. -/
def BulletCorrection32 (time : Int) : Int :=
  if time < 200 then (wrap32 (time * 23)).tdiv 32
  else if time < 400 then (wrap32 (time * 26)).tdiv 32
  else if time < 1200 then (wrap32 (time * 29)).tdiv 32
  else time

/-- `void SetMoveTime(int base, int inc, int movestogo)` in `int` arithmetic;
arguments and result as for `SetMoveTime`. -/
def SetMoveTime32 (time_percentage move_time base inc movestogo : Int) : Option Int :=
  if base ≥ 0 then do
    let base := if movestogo = 1 then wrap32 (base - Min 1000 (base.tdiv 10)) else base
    let move_time ←
      cdiv32 (wrap32 (base + wrap32 (inc * wrap32 (movestogo - 1)))) movestogo
    -- make a percentage correction to playing speed (unless too risky)
    let move_time :=
      if wrap32 (2 * move_time) > base then (wrap32 (move_time * time_percentage)).tdiv 100
      else move_time
    -- ensure that our limit does not exceed total time available
    let move_time := if move_time > base then base else move_time
    -- safeguard against a lag
    let move_time := wrap32 (move_time - 10)
    -- ensure that we have non-negative time
    let move_time := if move_time < 0 then 0 else move_time
    -- assign less time per move on extremely short time controls
    some (BulletCorrection32 move_time)
  else
    some move_time

/-- The "set move time" step of `ParseGo` with the planner in `int`
arithmetic. -/
def goSetMoveTime32 (side : Side) (time_percentage : Int) (v : GoVars) : Option GoVars :=
  if v.strict_time = 0 then do
    let base := if side = Side.WC then v.wtime else v.btime
    let inc := if side = Side.WC then v.winc else v.binc
    let move_time ← SetMoveTime32 time_percentage v.move_time base inc v.movestogo
    some { v with move_time := move_time }
  else
    some v

/-- `ParseGo` up to and including the "set move time" step, with the planner
in `int` arithmetic: the variables after that step, or `none` when the
division of the planner traps. -/
def ParseGoParams32 (side : Side) (time_percentage : Int) (ptr : List Char) : Option GoVars :=
  (ParseGoLoop (ptr.length + 1) goInit ptr).bind (goSetMoveTime32 side time_percentage)

/-- The budget the specification gives for the last move before the time
control (`movestogo = 1`), in exact arithmetic:
`BulletCorrection (max 0 (min (b*P/100) b - 10))` with
`b = base - min(1000, base/10)`. -/
def lastMoveBudget (P base : Int) : Int :=
  BulletCorrection (max 0 (min ((reservedBase base * P).tdiv 100) (reservedBase base) - 10))

/-! ## The character arrays of `UciLoop` and `ParsePosition`

`ParseToken` copies the token into the array its caller passes, and
`ParsePosition` appends to `fen` with `strcat`, both without a check of the
length.  A string of `n` characters takes `n + 1` places; a copy that does not
fit writes past the array and the behaviour of the program is undefined from
there on. -/

/-- The result of a function that writes to character arrays of fixed size:
its result, or `overrun` when it writes past an array, or `unfinished` when
the fuel of a loop is used up. -/
inductive Buffered (α : Type)
  | ok (a : α)
  | overrun
  | unfinished

/-- The result, when there is one. -/
def Buffered.get? {α : Type} : Buffered α → Option α
  | .ok a => some a
  | _ => none

/-- The function writes past an array. -/
def Buffered.isOverrun {α : Type} : Buffered α → Bool
  | .overrun => true
  | _ => false

/-- One round of `UciLoop` with the size of `char token[80]` taken into
account: the command word, and for `bench` its argument, are copied into that
array; with a token of 80 or more characters the round writes past it. -/
def UciLoopRound {σ : Type} (c : UciCalls σ) (command : List Char) (w : UciWorld σ) :
    Buffered (UciOutcome σ) :=
  let (token, ptr) := ParseToken command
  if 80 ≤ token.length then .overrun
  else if token = cmdBench ∧ 80 ≤ (ParseToken ptr).1.length then .overrun
  else .ok (UciStep c command w)

/-- The FEN loop of `ParsePosition` with the sizes of `char token[80]` and
`char fen[80]` taken into account: a token of 80 or more characters, or a
`fen` that reaches 80 characters with the token and the blank appended, is
written past the array. -/
def fenLoopBuf : Nat → List Char → List Char → Buffered (List Char × List Char × List Char)
  | 0, _, _ => .unfinished
  | fuel + 1, fen, ptr =>
    let (token, ptr) := ParseToken ptr
    if 80 ≤ token.length then .overrun
    else if token = [] ∨ token = kwMoves then .ok (fen, token, ptr)
    else if 80 ≤ fen.length + token.length + 1 then .overrun
    else fenLoopBuf fuel (fen ++ token ++ [' ']) ptr

/-- The moves of `ParsePosition` after the position is set (`ParseMoves` has
an array of its own, `char token[180]`, which is not looked at here). -/
def thenMoves {β : Type} (c : Chess β) (s : Session β) (token ptr : List Char) :
    Buffered (Session β) :=
  if token = kwMoves then
    match ParseMoves c s ptr with
    | some s => .ok s
    | none => .unfinished
  else .ok s

/-- `void ParsePosition(POS *p, const char *ptr)` with the sizes of its two
arrays taken into account. -/
def ParsePositionBuf {β : Type} (c : Chess β) (s : Session β) (ptr : List Char) :
    Buffered (Session β) :=
  let (token, ptr) := ParseToken ptr
  if 80 ≤ token.length then .overrun
  else if token = kwFen then
    match fenLoopBuf (ptr.length + 1) [] ptr with
    | .ok (fen, token, ptr) => thenMoves c { s with p := c.SetPosition s.p fen } token ptr
    | .overrun => .overrun
    | .unfinished => .unfinished
  else
    let (token, ptr) := ParseToken ptr
    if 80 ≤ token.length then .overrun
    else thenMoves c { s with p := c.SetPosition s.p c.START_POS } token ptr

/-- A position with 32 men and no two empty squares side by side, as a FEN of
88 characters. -/
def longFen : List Char :=
  "r1b1k1n1/1p1p1p1p/p1p1p1p1/1r1n1b1q/R1N1B1Q1/1P1P1P1P/P1P1P1P1/1R1B1K1N w KQkq e3 10 100".toList

/-! ## Auxiliary facts on the planner -/

theorem Min_eq_min (x y : Int) : Min x y = min x y := by
  unfold Min
  split <;> omega

theorem tdiv_ten_bounds {base : Int} (hb : 0 ≤ base) :
    0 ≤ base.tdiv 10 ∧ base.tdiv 10 ≤ base := by
  rw [Int.tdiv_eq_ediv hb (by decide)]
  omega

theorem reservedBase_bounds {base : Int} (hb : 0 ≤ base) :
    0 ≤ reservedBase base ∧ reservedBase base ≤ base := by
  have h := tdiv_ten_bounds hb
  unfold reservedBase
  omega

theorem BulletCorrection_bounds {t : Int} (ht : 0 ≤ t) :
    0 ≤ BulletCorrection t ∧ BulletCorrection t ≤ t := by
  unfold BulletCorrection
  have h23 : (t * 23).tdiv 32 = (t * 23) / 32 := Int.tdiv_eq_ediv (by omega) (by decide)
  have h26 : (t * 26).tdiv 32 = (t * 26) / 32 := Int.tdiv_eq_ediv (by omega) (by decide)
  have h29 : (t * 29).tdiv 32 = (t * 29) / 32 := Int.tdiv_eq_ediv (by omega) (by decide)
  rw [h23, h26, h29]
  split_ifs <;> omega

theorem SetMoveTime_eq_steps (P mt base inc movestogo : Int)
    (hb : 0 ≤ base) (hm : movestogo ≠ 0) :
    SetMoveTime P mt base inc movestogo = some (plannerSteps P base inc movestogo) := by
  unfold SetMoveTime plannerSteps cdiv
  simp only [ge_iff_le, hb, if_true, hm, if_false, Min_eq_min, Option.bind_eq_bind,
    Option.some_bind, Option.some.injEq, gt_iff_lt]
  congr 1
  generalize (if movestogo = 1 then base - min 1000 (base.tdiv 10) else base) = b
  generalize (b + inc * (movestogo - 1)).tdiv movestogo = r
  generalize (if b < 2 * r then (r * P).tdiv 100 else r) = s
  rcases lt_or_le b s with h | h
  · rw [if_pos h, min_eq_right h.le]
    split_ifs <;> omega
  · rw [if_neg (not_lt.mpr h), min_eq_left h]
    split_ifs <;> omega

/-- With a divisor other than zero `SetMoveTime` has a result. -/
theorem SetMoveTime_total (P mt base inc movestogo : Int) (hm : movestogo ≠ 0) :
    ∃ t, SetMoveTime P mt base inc movestogo = some t := by
  by_cases hb : 0 ≤ base
  · exact ⟨_, SetMoveTime_eq_steps P mt base inc movestogo hb hm⟩
  · exact ⟨mt, by simp [SetMoveTime, hb]⟩

/-! ## Claims on the planner -/

/-- C1: for `base ≥ 0` and `movestogo ≥ 1`, `SetMoveTime` sets `move_time` to
the result of the six steps of the specification, applied in their order; in
particular base 60000, inc 0, movestogo 40 at percentage 100 gives 1490. -/
theorem SetMoveTime_six_steps (P mt base inc movestogo : Int)
    (hb : 0 ≤ base) (hm : 1 ≤ movestogo) :
    SetMoveTime P mt base inc movestogo = some (plannerSteps P base inc movestogo)
      ∧ SetMoveTime 100 mt 60000 0 40 = some 1490 := by
  refine ⟨SetMoveTime_eq_steps P mt base inc movestogo hb (by omega), ?_⟩
  rw [SetMoveTime_eq_steps 100 mt 60000 0 40 (by decide) (by decide)]
  decide

theorem SetMoveTime_six_steps_witness :
    (0 : Int) ≤ 60000 ∧ (1 : Int) ≤ 40
      ∧ SetMoveTime 100 (-1) 60000 0 40 = some (plannerSteps 100 60000 0 40)
      ∧ SetMoveTime 100 (-1) 60000 0 40 = some 1490 :=
  ⟨by decide, by decide, SetMoveTime_six_steps 100 (-1) 60000 0 40 (by decide) (by decide)⟩

/-- A value in the range of `int` is stored as it is. -/
theorem wrap32_of_range (x : Int) (hlo : INT_MIN ≤ x) (hhi : x ≤ INT_MAX) : wrap32 x = x := by
  unfold INT_MIN at hlo
  unfold INT_MAX at hhi
  unfold wrap32
  omega

/-- C2 as stated fails: for a very negative `t` the product `t * 23` leaves
the range of `int`; at `t = -100000000` the function returns 62342728 where
`(t*23)/32` is -71875000, and the first value at which it differs is
-93368855. -/
theorem BulletCorrection_overflows :
    BulletCorrection32 (-100000000) = 62342728
      ∧ ((-100000000 : Int) * 23).tdiv 32 = -71875000
      ∧ INT_MIN ≤ (-100000000 : Int) ∧ (-100000000 : Int) < 200
      ∧ BulletCorrection32 (-93368855) = 67108863
      ∧ ((-93368855 : Int) * 23).tdiv 32 = -67108864 := by
  decide

/-- C2 (amended): for every `int` value `t` from -93368854 on (the values for
which `t * 23` stays in the range of `int`, every `t >= 0` among them)
`BulletCorrection t` is `(t*23)/32` below 200, `(t*26)/32` from 200 below 400,
`(t*29)/32` from 400 below 1200 and `t` from 1200 on (truncating division);
each boundary belongs to the higher tier, so the value at 199 is 143 and the
value at 200 is 162. -/
theorem BulletCorrection_tiers (t : Int) (hlo : -93368854 ≤ t) :
    (t < 200 → BulletCorrection32 t = (t * 23).tdiv 32)
      ∧ (200 ≤ t → t < 400 → BulletCorrection32 t = (t * 26).tdiv 32)
      ∧ (400 ≤ t → t < 1200 → BulletCorrection32 t = (t * 29).tdiv 32)
      ∧ (1200 ≤ t → BulletCorrection32 t = t)
      ∧ BulletCorrection32 199 = 143 ∧ BulletCorrection32 200 = 162
      ∧ BulletCorrection32 400 = 362 ∧ BulletCorrection32 1200 = 1200 := by
  refine ⟨?_, ?_, ?_, ?_, by decide, by decide, by decide, by decide⟩
  · intro h
    have hw : wrap32 (t * 23) = t * 23 :=
      wrap32_of_range _ (by unfold INT_MIN; omega) (by unfold INT_MAX; omega)
    simp [BulletCorrection32, h, hw]
  · intro h1 h2
    have hw : wrap32 (t * 26) = t * 26 :=
      wrap32_of_range _ (by unfold INT_MIN; omega) (by unfold INT_MAX; omega)
    simp [BulletCorrection32, not_lt.mpr h1, h2, hw]
  · intro h1 h2
    have h3 : ¬ t < 200 := by omega
    have h4 : ¬ t < 400 := by omega
    have hw : wrap32 (t * 29) = t * 29 :=
      wrap32_of_range _ (by unfold INT_MIN; omega) (by unfold INT_MAX; omega)
    simp [BulletCorrection32, h3, h4, h2, hw]
  · intro h
    have h3 : ¬ t < 200 := by omega
    have h4 : ¬ t < 400 := by omega
    have h5 : ¬ t < 1200 := by omega
    simp [BulletCorrection32, h3, h4, h5]

theorem BulletCorrection_tiers_witness :
    BulletCorrection32 (-500) = ((-500 : Int) * 23).tdiv 32
      ∧ BulletCorrection32 250 = ((250 : Int) * 26).tdiv 32 :=
  ⟨(BulletCorrection_tiers (-500) (by decide)).1 (by decide),
    (BulletCorrection_tiers 250 (by decide)).2.1 (by decide) (by decide)⟩

/-- C3: for `base ≥ 0`, any increment, `movestogo ≥ 1` and any percentage, the
budget `SetMoveTime` produces is non-negative and at most the remaining clock
`base`. -/
theorem SetMoveTime_within_clock (P mt base inc movestogo : Int)
    (hb : 0 ≤ base) (hm : 1 ≤ movestogo) :
    ∃ t, SetMoveTime P mt base inc movestogo = some t ∧ 0 ≤ t ∧ t ≤ base := by
  refine ⟨_, SetMoveTime_eq_steps P mt base inc movestogo hb (by omega), ?_⟩
  unfold plannerSteps
  have hr := reservedBase_bounds hb
  unfold reservedBase at hr
  simp only []
  generalize hb1 : (if movestogo = 1 then base - min 1000 (base.tdiv 10) else base) = b
  have hb0 : 0 ≤ b ∧ b ≤ base := by
    rw [← hb1]
    split_ifs <;> omega
  generalize (b + inc * (movestogo - 1)).tdiv movestogo = r
  generalize (if 2 * r > b then (r * P).tdiv 100 else r) = s
  have h5 : 0 ≤ max (min s b - 10) 0 ∧ max (min s b - 10) 0 ≤ b := by
    omega
  have hB := BulletCorrection_bounds h5.1
  omega

theorem SetMoveTime_within_clock_witness :
    (0 : Int) ≤ 1000 ∧ (1 : Int) ≤ 2
      ∧ ∃ t, SetMoveTime 250 (-1) 1000 (-300) 2 = some t ∧ 0 ≤ t ∧ t ≤ 1000 :=
  ⟨by decide, by decide, SetMoveTime_within_clock 250 (-1) 1000 (-300) 2 (by decide) (by decide)⟩

/-- C4 (fails on the code): with 30000000 ms on the clock, `movestogo = 1`
and the percentage 100, the product `move_time * Par.time_percentage` leaves
the range of `int` and the budget comes out as 0, where
`BulletCorrection (max 0 (min (b*P/100) b - 10))` is 29998990; with
2147483647 ms and the percentage 50 the test `2 * move_time > base` overflows,
the scaling is skipped and the budget is 2147482637 where the formula gives
1073741313. -/
theorem SetMoveTime_last_move_overflows :
    SetMoveTime32 100 (-1) 30000000 0 1 = some 0
      ∧ lastMoveBudget 100 30000000 = 29998990
      ∧ (ParseGoParams32 Side.WC 100 " wtime 30000000 movestogo 1".toList).map GoVars.move_time
        = some 0
      ∧ SetMoveTime32 50 (-1) 2147483647 0 1 = some 2147482637
      ∧ lastMoveBudget 50 2147483647 = 1073741313 := by
  decide

/-! ## Auxiliary facts on tokens -/

theorem dropWhile_blanks (n : Nat) (l : List Char) (hl : ∀ c l2, l = c :: l2 → c ≠ ' ') :
    (blanks n ++ l).dropWhile (fun c => c == ' ') = l := by
  induction n with
  | zero =>
    cases l with
    | nil => rfl
    | cons c l2 =>
      have h := hl c l2 rfl
      simp [blanks, h]
  | succ n ih =>
    simpa [blanks, List.replicate_succ] using ih

/-- A line that is blank to its end holds no token. -/
theorem ParseToken_blanks (n : Nat) : ParseToken (blanks n) = ([], []) := by
  have h := dropWhile_blanks n [] (by simp)
  simp only [List.append_nil] at h
  simp [ParseToken, h]

theorem blankStart_blanks_append (n : Nat) (l : List Char) : BlankStart (blanks (n + 1) ++ l) := by
  intro c r2 h
  simp only [blanks, List.replicate_succ, List.cons_append, List.cons.injEq] at h
  exact h.1.symm

theorem blankStart_blanks (n : Nat) : BlankStart (blanks n) := by
  cases n with
  | zero => intro c r2 h; simp [blanks] at h
  | succ n => simpa using blankStart_blanks_append n []

/-- The token of a line that starts with blanks and a word is that word. -/
theorem ParseToken_word (n : Nat) (t rest : List Char) (ht : IsWord t) (hr : BlankStart rest) :
    ParseToken (blanks n ++ (t ++ rest)) = (t, rest) := by
  obtain ⟨hne, hc⟩ := ht
  have h1 : (blanks n ++ (t ++ rest)).dropWhile (fun c => c == ' ') = t ++ rest := by
    apply dropWhile_blanks
    intro c l2 h
    cases t with
    | nil => exact absurd rfl hne
    | cons a t2 =>
      simp only [List.cons_append, List.cons.injEq] at h
      exact h.1 ▸ hc a (List.mem_cons_self _ _)
  have hp : ∀ a ∈ t, (fun c : Char => c != ' ') a = true := by
    intro a ha
    simpa using hc a ha
  have h2 : rest.takeWhile (fun c => c != ' ') = [] := by
    cases rest with
    | nil => rfl
    | cons c r2 => simp [hr c r2 rfl]
  have h3 : rest.dropWhile (fun c => c != ' ') = rest := by
    cases rest with
    | nil => rfl
    | cons c r2 => simp [hr c r2 rfl]
  simp only [ParseToken, h1, List.takeWhile_append_of_pos hp, List.dropWhile_append_of_pos hp,
    h2, h3, List.append_nil]

theorem isWord_text (k : GoKey) : IsWord k.text := by
  cases k <;> exact ⟨by decide, by decide⟩

theorem GoLine.blankStart {args : List GoArg} {line : List Char} (h : GoLine args line) :
    BlankStart line := by
  cases h with
  | done n => exact blankStart_blanks n
  | lone n t args rest _ _ _ =>
    rw [List.append_assoc]; exact blankStart_blanks_append n _
  | param n m k value args rest _ _ =>
    rw [List.append_assoc, List.append_assoc, List.append_assoc]
    exact blankStart_blanks_append n _
  | last n m k =>
    rw [List.append_assoc]; exact blankStart_blanks_append n _

/-! ## The parameter loop on a spelled-out line -/

theorem ParseGoLoop_nil (fuel : Nat) (v : GoVars) : ParseGoLoop (fuel + 1) v [] = some v := by
  simp [ParseGoLoop, ParseToken]

/-- One round of the loop on a word that stands alone. -/
theorem ParseGoLoop_lone (fuel n : Nat) (v : GoVars) (t rest : List Char)
    (ht : IsWord t) (hk : ∀ k : GoKey, t ≠ k.text) (hr : BlankStart rest) :
    ParseGoLoop (fuel + 1) v (blanks n ++ (t ++ rest))
      = ParseGoLoop fuel (applyArg v (GoArg.lone t)) rest := by
  have h1 := hk .depth
  have h2 := hk .movetime
  have h3 := hk .nodes
  have h4 := hk .wtime
  have h5 := hk .btime
  have h6 := hk .winc
  have h7 := hk .binc
  have h8 := hk .movestogo
  simp only [GoKey.text] at h1 h2 h3 h4 h5 h6 h7 h8
  rw [ParseGoLoop, ParseToken_word n t rest ht hr]
  simp only [ht.1, h1, h2, h3, h4, h5, h6, h7, h8, if_false, applyArg]
  split <;> rfl

/-- One round of the loop on a parameter name followed by the token `value`
(a word, or empty at the end of the line). -/
theorem ParseGoLoop_param (fuel n : Nat) (v : GoVars) (k : GoKey) (value mid rest : List Char)
    (hv : ParseToken mid = (value, rest)) (hm : BlankStart mid) :
    ParseGoLoop (fuel + 1) v (blanks n ++ (k.text ++ mid))
      = ParseGoLoop fuel (applyArg v (GoArg.param k value)) rest := by
  rw [ParseGoLoop, ParseToken_word n k.text mid (isWord_text k) hm]
  cases k <;> simp [GoKey.text, kwPonder, kwDepth, kwMovetime, kwNodes, kwWtime, kwBtime,
    kwWinc, kwBinc, kwMovestogo, hv, applyArg]

/-- On a line that spells the items `args` the parameter loop ends, and it
ends with the variables the items produce one after the other. -/
theorem ParseGoLoop_of_GoLine {args : List GoArg} {line : List Char} (h : GoLine args line) :
    ∀ (fuel : Nat) (v : GoVars), line.length < fuel →
      ParseGoLoop fuel v line = some (args.foldl applyArg v) := by
  induction h with
  | done n =>
    intro fuel v hf
    cases fuel with
    | zero => omega
    | succ f => simp [ParseGoLoop, ParseToken_blanks]
  | lone n t args rest ht hk hrest ih =>
    intro fuel v hf
    cases fuel with
    | zero => omega
    | succ f =>
      rw [List.append_assoc, ParseGoLoop_lone f (n + 1) v t rest ht hk hrest.blankStart]
      rw [ih f _ (by simp only [List.length_append, blanks, List.length_replicate] at hf; omega)]
      rfl
  | param n m k value args rest hv hrest ih =>
    intro fuel v hf
    cases fuel with
    | zero => omega
    | succ f =>
      rw [List.append_assoc, List.append_assoc, List.append_assoc,
        ParseGoLoop_param f (n + 1) v k value (blanks (m + 1) ++ (value ++ rest)) rest
          (ParseToken_word (m + 1) value rest hv hrest.blankStart)
          (blankStart_blanks_append m _)]
      rw [ih f _ (by simp only [List.length_append, blanks, List.length_replicate] at hf; omega)]
      rfl
  | last n m k =>
    intro fuel v hf
    cases fuel with
    | zero => omega
    | succ f =>
      rw [List.append_assoc,
        ParseGoLoop_param f (n + 1) v k [] (blanks m) [] (ParseToken_blanks m) (blankStart_blanks m)]
      have hlen : 0 < k.text.length := by cases k <;> decide
      cases f with
      | zero => simp only [List.length_append] at hf; omega
      | succ f2 => rw [ParseGoLoop_nil]; rfl

/-! ## The parameter loop ends on every line -/

theorem ParseToken_length (s : List Char) :
    (ParseToken s).1.length + (ParseToken s).2.length ≤ s.length := by
  have h1 : (s.dropWhile (fun c => c == ' ')).length ≤ s.length :=
    (List.dropWhile_sublist _).length_le
  have h2 := congrArg List.length
    (List.takeWhile_append_dropWhile (fun c => c != ' ') (s.dropWhile (fun c => c == ' ')))
  simp only [List.length_append] at h2
  simp only [ParseToken]
  omega

theorem ParseToken_rest_le (s : List Char) : (ParseToken s).2.length ≤ s.length := by
  have h := ParseToken_length s
  omega

theorem ParseToken_rest_lt (s : List Char) (h : (ParseToken s).1 ≠ []) :
    (ParseToken s).2.length < s.length := by
  have h1 := ParseToken_length s
  have h2 : 0 < (ParseToken s).1.length := List.length_pos.mpr h
  omega

/-- With more fuel than the line has characters the parameter loop of
`ParseGo` returns: the fuel never runs out. -/
theorem ParseGoLoop_total (fuel : Nat) :
    ∀ (v : GoVars) (ptr : List Char), ptr.length < fuel →
      ∃ g, ParseGoLoop fuel v ptr = some g := by
  induction fuel with
  | zero => intro v ptr h; omega
  | succ f ih =>
    intro v ptr hlen
    have hlt := ParseToken_rest_lt ptr
    have hle := ParseToken_rest_le (ParseToken ptr).2
    rw [ParseGoLoop]
    generalize ParseToken ptr = p at hlt hle ⊢
    obtain ⟨tok, r⟩ := p
    generalize ParseToken r = p2 at hle ⊢
    obtain ⟨tok2, r2⟩ := p2
    dsimp only at hlt hle ⊢
    by_cases h0 : tok = []
    · exact ⟨v, if_pos h0⟩
    · have hr : r.length < f := by have := hlt h0; omega
      have hr2 : r2.length < f := by omega
      rw [if_neg h0]
      have hr3 : (ParseToken r).2.length < f := lt_of_le_of_lt (ParseToken_rest_le r) hr
      by_cases h1 : tok = kwPonder
      · rw [if_pos h1]
        exact ih _ _ (by assumption)
      rw [if_neg h1]
      by_cases h2 : tok = kwDepth
      · rw [if_pos h2]
        exact ih _ _ (by assumption)
      rw [if_neg h2]
      by_cases h3 : tok = kwMovetime
      · rw [if_pos h3]
        exact ih _ _ (by assumption)
      rw [if_neg h3]
      by_cases h4 : tok = kwNodes
      · rw [if_pos h4]
        exact ih _ _ (by assumption)
      rw [if_neg h4]
      by_cases h5 : tok = kwWtime
      · rw [if_pos h5]
        exact ih _ _ (by assumption)
      rw [if_neg h5]
      by_cases h6 : tok = kwBtime
      · rw [if_pos h6]
        exact ih _ _ (by assumption)
      rw [if_neg h6]
      by_cases h7 : tok = kwWinc
      · rw [if_pos h7]
        exact ih _ _ (by assumption)
      rw [if_neg h7]
      by_cases h8 : tok = kwBinc
      · rw [if_pos h8]
        exact ih _ _ (by assumption)
      rw [if_neg h8]
      by_cases h9 : tok = kwMovestogo
      · rw [if_pos h9]
        exact ih _ _ (by assumption)
      rw [if_neg h9]
      exact ih _ _ hr

/-- On every line the parameter stage of `ParseGo` fails only where
`SetMoveTime` does: the loop always hands its variables to that step. -/
theorem ParseGoParams_eq (side : Side) (P : Int) (ptr : List Char) :
    ∃ g, ParseGoLoop (ptr.length + 1) goInit ptr = some g
      ∧ ParseGoParams side P ptr = goSetMoveTime side P g := by
  obtain ⟨g, hg⟩ := ParseGoLoop_total (ptr.length + 1) goInit ptr (Nat.lt_succ_self _)
  exact ⟨g, hg, by simp [ParseGoParams, hg]⟩

/-- The parameter stage on a line that spells the items `args`. -/
theorem ParseGoParams_of_GoLine {args : List GoArg} {line : List Char} (h : GoLine args line)
    (side : Side) (P : Int) :
    ParseGoParams side P line = goSetMoveTime side P (args.foldl applyArg goInit) := by
  simp [ParseGoParams, ParseGoLoop_of_GoLine h (line.length + 1) goInit (Nat.lt_succ_self _)]

/-! ## What a list of items does to the variables -/

theorem foldl_lastValue (args : List GoArg) : ∀ v : GoVars,
    (args.foldl applyArg v).wtime = lastValue .wtime v.wtime args
      ∧ (args.foldl applyArg v).btime = lastValue .btime v.btime args
      ∧ (args.foldl applyArg v).winc = lastValue .winc v.winc args
      ∧ (args.foldl applyArg v).binc = lastValue .binc v.binc args
      ∧ (args.foldl applyArg v).movestogo = lastValue .movestogo v.movestogo args
      ∧ (args.foldl applyArg v).search_depth = lastValue .depth v.search_depth args
      ∧ (args.foldl applyArg v).move_nodes = lastValue .nodes v.move_nodes args := by
  induction args with
  | nil => intro v; simp [lastValue]
  | cons a rest ih =>
    intro v
    rw [List.foldl_cons]
    have h := ih (applyArg v a)
    cases a with
    | lone t =>
      simp only [lastValue]
      by_cases hp : t = kwPonder <;> simpa [applyArg, hp] using h
    | param k s =>
      cases k <;> simpa [applyArg, lastValue] using h

/-- Once strict mode is on, it stays on. -/
theorem foldl_strict_keep (args : List GoArg) : ∀ v : GoVars, v.strict_time = 1 →
    (args.foldl applyArg v).strict_time = 1 := by
  induction args with
  | nil => intro v h; exact h
  | cons a rest ih =>
    intro v h
    rw [List.foldl_cons]
    apply ih
    cases a with
    | lone t => by_cases hp : t = kwPonder <;> simp [applyArg, hp, h]
    | param k s => cases k <;> simp [applyArg, h]

/-- A strict parameter anywhere on the line turns strict mode on. -/
theorem foldl_strict_of_mem (args : List GoArg) : ∀ v : GoVars,
    (∃ a ∈ args, a.isStrict = true) → (args.foldl applyArg v).strict_time = 1 := by
  induction args with
  | nil => intro v h; simp at h
  | cons a rest ih =>
    intro v h
    rw [List.foldl_cons]
    by_cases ha : a.isStrict = true
    · apply foldl_strict_keep
      cases a with
      | lone t => simp [GoArg.isStrict] at ha
      | param k s => cases k <;> simp_all [applyArg, GoArg.isStrict, GoKey.isStrict]
    · apply ih
      obtain ⟨b, hb, hs⟩ := h
      rcases List.mem_cons.mp hb with rfl | hb2
      · exact absurd hs ha
      · exact ⟨b, hb2, hs⟩

/-- Items other than `movetime` and `nodes` leave `move_time` alone, and
items other than `depth`, `movetime`, `nodes` leave strict mode alone. -/
theorem foldl_keep (args : List GoArg) : ∀ v : GoVars,
    ((∀ a ∈ args, a.key ≠ some .movetime ∧ a.key ≠ some .nodes) →
        (args.foldl applyArg v).move_time = v.move_time)
      ∧ ((∀ a ∈ args, a.isStrict = false) →
        (args.foldl applyArg v).strict_time = v.strict_time) := by
  induction args with
  | nil => intro v; simp
  | cons a rest ih =>
    intro v
    rw [List.foldl_cons]
    obtain ⟨ih1, ih2⟩ := ih (applyArg v a)
    constructor
    · intro h
      rw [ih1 (fun b hb => h b (List.mem_cons_of_mem _ hb))]
      have ha := h a (List.mem_cons_self _ _)
      cases a with
      | lone t => by_cases hp : t = kwPonder <;> simp [applyArg, hp]
      | param k s => cases k <;> simp_all [applyArg, GoArg.key]
    · intro h
      rw [ih2 (fun b hb => h b (List.mem_cons_of_mem _ hb))]
      have ha := h a (List.mem_cons_self _ _)
      cases a with
      | lone t => by_cases hp : t = kwPonder <;> simp [applyArg, hp]
      | param k s => cases k <;> simp_all [applyArg, GoArg.isStrict, GoKey.isStrict]

/-- A parameter the line does not have keeps its default. -/
theorem lastValue_absent (k : GoKey) (l : List GoArg) :
    ∀ e : Int, (∀ a ∈ l, a.key ≠ some k) → lastValue k e l = e := by
  induction l with
  | nil => intro e _; rfl
  | cons a rest ih =>
    intro e h
    have ha := h a (List.mem_cons_self _ _)
    have hr := fun e2 => ih e2 (fun b hb => h b (List.mem_cons_of_mem _ hb))
    cases a with
    | lone t => simpa [lastValue] using hr e
    | param k2 s2 =>
      have hk : k2 ≠ k := by simpa [GoArg.key] using ha
      simpa [lastValue, hk] using hr e

/-- The value of a parameter is the one of its last occurrence. -/
theorem lastValue_append_param (k : GoKey) (s : List Char) (pre post : List GoArg)
    (hpost : ∀ a ∈ post, a.key ≠ some k) (d : Int) :
    lastValue k d (pre ++ GoArg.param k s :: post) = atoi s := by
  induction pre generalizing d with
  | nil => simp [lastValue, lastValue_absent k post _ hpost]
  | cons a rest ih =>
    cases a with
    | lone t => simpa [lastValue] using ih d
    | param k2 s2 => simpa [lastValue] using ih _

/-- Lines that differ only in clock values agree on the budget variables. -/
theorem foldl_clockVariant {args1 args2 : List GoArg} (h : ClockVariant args1 args2) :
    ∀ v1 v2 : GoVars, v1.move_time = v2.move_time → v1.move_nodes = v2.move_nodes →
      v1.search_depth = v2.search_depth → v1.strict_time = v2.strict_time →
      (args1.foldl applyArg v1).move_time = (args2.foldl applyArg v2).move_time
        ∧ (args1.foldl applyArg v1).move_nodes = (args2.foldl applyArg v2).move_nodes
        ∧ (args1.foldl applyArg v1).search_depth = (args2.foldl applyArg v2).search_depth
        ∧ (args1.foldl applyArg v1).strict_time = (args2.foldl applyArg v2).strict_time := by
  unfold ClockVariant at h
  induction h with
  | nil => intro v1 v2 h1 h2 h3 h4; exact ⟨h1, h2, h3, h4⟩
  | @cons a b l1 l2 hab _ ih =>
    intro v1 v2 h1 h2 h3 h4
    rw [List.foldl_cons, List.foldl_cons]
    rcases hab with rfl | ⟨k, s1, s2, hk, rfl, rfl⟩
    · cases a with
      | lone t =>
        by_cases hp : t = kwPonder <;>
          exact ih _ _ (by simp [applyArg, hp, h1]) (by simp [applyArg, hp, h2])
            (by simp [applyArg, hp, h3]) (by simp [applyArg, hp, h4])
      | param k s =>
        cases k <;>
          exact ih _ _ (by simp [applyArg, h1]) (by simp [applyArg, h2])
            (by simp [applyArg, h3]) (by simp [applyArg, h4])
    · cases k <;> first
        | (exfalso; revert hk; decide)
        | exact ih _ _ (by simp [applyArg, h1]) (by simp [applyArg, h2])
            (by simp [applyArg, h3]) (by simp [applyArg, h4])

/-- In strict mode the "set move time" step changes nothing. -/
theorem goSetMoveTime_strict (side : Side) (P : Int) (v : GoVars) (h : v.strict_time = 1) :
    goSetMoveTime side P v = some v := by
  simp [goSetMoveTime, h]

/-! ## Claims on the parameters of `go` -/

/-- C5 (fails on the code): on `go wtime 1000 movestogo x` and on
`go wtime 1000 movestogo 0` with white to move the loop reads `movestogo` as
0 and stays in clock mode, and `SetMoveTime` then divides by that zero: the
parameter stage has no result, whatever the percentage. -/
theorem ParseGo_movestogo_zero_no_budget (P : Int) :
    ParseGoLoop 24 goInit " wtime 1000 movestogo x".toList
        = some { goInit with wtime := 1000, movestogo := 0 }
      ∧ SetMoveTime P (-1) 1000 0 0 = none
      ∧ ParseGoParams Side.WC P " wtime 1000 movestogo x".toList = none
      ∧ ParseGoParams Side.WC P " wtime 1000 movestogo 0".toList = none := by
  have h1 : ParseGoLoop 24 goInit " wtime 1000 movestogo x".toList
      = some { goInit with wtime := 1000, movestogo := 0 } := by decide
  have h2 : ParseGoLoop 24 goInit " wtime 1000 movestogo 0".toList
      = some { goInit with wtime := 1000, movestogo := 0 } := by decide
  have h3 : SetMoveTime P (-1) 1000 0 0 = none := by
    simp [SetMoveTime, cdiv]
  have h4 : goSetMoveTime Side.WC P { goInit with wtime := 1000, movestogo := 0 } = none := by
    simp [goSetMoveTime, goInit, SetMoveTime, cdiv]
  refine ⟨h1, h3, ?_, ?_⟩
  · show (ParseGoLoop 24 goInit " wtime 1000 movestogo x".toList).bind _ = none
    rw [h1]; exact h4
  · show (ParseGoLoop 24 goInit " wtime 1000 movestogo 0".toList).bind _ = none
    rw [h2]; exact h4

/-- C6: two `go` lines that hold at least one of `depth`, `movetime`, `nodes`
and differ only in the values given to `wtime`, `btime`, `winc`, `binc`,
`movestogo` produce the same `move_time`, `move_nodes` and `search_depth`,
for either side to move. -/
theorem ParseGo_strict_bypasses_clock (side : Side) (P : Int)
    (args1 args2 : List GoArg) (line1 line2 : List Char)
    (h1 : GoLine args1 line1) (h2 : GoLine args2 line2)
    (hv : ClockVariant args1 args2) (hs : ∃ a ∈ args1, a.isStrict = true) :
    ∃ g1 g2, ParseGoParams side P line1 = some g1 ∧ ParseGoParams side P line2 = some g2
      ∧ g1.move_time = g2.move_time ∧ g1.move_nodes = g2.move_nodes
      ∧ g1.search_depth = g2.search_depth := by
  have hf := foldl_clockVariant hv goInit goInit rfl rfl rfl rfl
  have hs1 := foldl_strict_of_mem args1 goInit hs
  have hs2 : (args2.foldl applyArg goInit).strict_time = 1 := hf.2.2.2 ▸ hs1
  refine ⟨_, _, ?_, ?_, hf.1, hf.2.1, hf.2.2.1⟩
  · rw [ParseGoParams_of_GoLine h1, goSetMoveTime_strict _ _ _ hs1]
  · rw [ParseGoParams_of_GoLine h2, goSetMoveTime_strict _ _ _ hs2]

theorem goLine_depth_wtime_100 :
    GoLine [GoArg.param .depth "5".toList, GoArg.param .wtime "100".toList,
        GoArg.param .movestogo "0".toList]
      " depth 5 wtime 100 movestogo 0".toList :=
  GoLine.param 0 0 .depth "5".toList _ _ ⟨by decide, by decide⟩
    (GoLine.param 0 0 .wtime "100".toList _ _ ⟨by decide, by decide⟩
      (GoLine.param 0 0 .movestogo "0".toList _ _ ⟨by decide, by decide⟩ (GoLine.done 0)))

theorem goLine_depth_wtime_999 :
    GoLine [GoArg.param .depth "5".toList, GoArg.param .wtime "999".toList,
        GoArg.param .movestogo "30".toList]
      " depth 5  wtime 999 movestogo 30 ".toList :=
  GoLine.param 0 0 .depth "5".toList _ _ ⟨by decide, by decide⟩
    (GoLine.param 1 0 .wtime "999".toList _ _ ⟨by decide, by decide⟩
      (GoLine.param 0 0 .movestogo "30".toList _ _ ⟨by decide, by decide⟩ (GoLine.done 1)))

theorem ParseGo_strict_bypasses_clock_witness :
    ∃ g1 g2, ParseGoParams Side.WC 100 " depth 5 wtime 100 movestogo 0".toList = some g1
      ∧ ParseGoParams Side.WC 100 " depth 5  wtime 999 movestogo 30 ".toList = some g2
      ∧ g1.move_time = g2.move_time ∧ g1.move_nodes = g2.move_nodes
      ∧ g1.search_depth = g2.search_depth :=
  ParseGo_strict_bypasses_clock Side.WC 100 _ _ _ _ goLine_depth_wtime_100 goLine_depth_wtime_999
    (List.Forall₂.cons (Or.inl rfl)
      (List.Forall₂.cons (Or.inr ⟨.wtime, _, _, rfl, rfl, rfl⟩)
        (List.Forall₂.cons (Or.inr ⟨.movestogo, _, _, rfl, rfl, rfl⟩) List.Forall₂.nil)))
    ⟨_, List.mem_cons_self _ _, rfl⟩

/-- C7 (fails on the code): on `go movetime 100 nodes 5` the `nodes` branch,
coming later, overwrites the budget: `move_time` ends as 99999999 and the
limit of 100 ms is lost, whereas on `go nodes 5 movetime 100`, the same
parameters in the other order, `move_time` is 100 and both limits stand. -/
theorem ParseGo_movetime_then_nodes :
    (ParseGoParams Side.WC 100 " movetime 100 nodes 5".toList).map
        (fun g => (g.move_time, g.move_nodes)) = some (99999999, 5)
      ∧ atoi "100".toList = 100
      ∧ (ParseGoParams Side.WC 100 " movetime 100 nodes 5".toList).map GoVars.move_time
        ≠ some (atoi "100".toList)
      ∧ (ParseGoParams Side.WC 100 " nodes 5 movetime 100".toList).map
        (fun g => (g.move_time, g.move_nodes)) = some (100, 5) := by
  decide

/-- C8: when the line specifies `nodes N` and no `movetime`, then after
parsing `move_nodes` is `N` and `move_time` is the sentinel 99999999, for
either side and whatever clock parameters the line holds; `go nodes 500000`
gives 500000 and 99999999. -/
theorem ParseGo_nodes_sentinel (side : Side) (P : Int) (pre post : List GoArg)
    (s line : List Char)
    (h : GoLine (pre ++ GoArg.param .nodes s :: post) line)
    (hpost : ∀ a ∈ post, a.key ≠ some .nodes)
    (hmt : ∀ a ∈ pre ++ GoArg.param .nodes s :: post, a.key ≠ some .movetime) :
    (∃ g, ParseGoParams side P line = some g ∧ g.move_nodes = atoi s
        ∧ g.move_time = 99999999)
      ∧ (∃ g, ParseGoParams side P " nodes 500000".toList = some g ∧ g.move_nodes = 500000
        ∧ g.move_time = 99999999) := by
  have key : ∀ (pre post : List GoArg) (s line : List Char),
      GoLine (pre ++ GoArg.param .nodes s :: post) line →
      (∀ a ∈ post, a.key ≠ some .nodes) →
      (∀ a ∈ pre ++ GoArg.param .nodes s :: post, a.key ≠ some .movetime) →
      ∃ g, ParseGoParams side P line = some g ∧ g.move_nodes = atoi s
        ∧ g.move_time = 99999999 := by
    intro pre post s line h hpost hmt
    have hs : ((pre ++ GoArg.param .nodes s :: post).foldl applyArg goInit).strict_time = 1 :=
      foldl_strict_of_mem _ goInit ⟨GoArg.param .nodes s, by simp, rfl⟩
    refine ⟨_, by rw [ParseGoParams_of_GoLine h, goSetMoveTime_strict _ _ _ hs], ?_, ?_⟩
    · rw [(foldl_lastValue _ goInit).2.2.2.2.2.2, lastValue_append_param .nodes s pre post hpost]
    · have hp : ∀ a ∈ post, a.key ≠ some .movetime ∧ a.key ≠ some .nodes :=
        fun a ha => ⟨hmt a (by simp [ha]), hpost a ha⟩
      rw [List.foldl_append, List.foldl_cons, (foldl_keep post _).1 hp]
      rfl
  refine ⟨key pre post s line h hpost hmt, ?_⟩
  have h5 := key [] [] "500000".toList " nodes 500000".toList
    (GoLine.param 0 0 .nodes "500000".toList _ _ ⟨by decide, by decide⟩ (GoLine.done 0))
    (by decide) (by decide)
  have ha : atoi "500000".toList = 500000 := by decide
  rwa [ha] at h5

theorem goLine_wtime_nodes :
    GoLine [GoArg.param .wtime "1000".toList, GoArg.param .nodes "77".toList,
        GoArg.param .depth "3".toList]
      " wtime 1000 nodes 77 depth 3".toList :=
  GoLine.param 0 0 .wtime "1000".toList _ _ ⟨by decide, by decide⟩
    (GoLine.param 0 0 .nodes "77".toList _ _ ⟨by decide, by decide⟩
      (GoLine.param 0 0 .depth "3".toList _ _ ⟨by decide, by decide⟩ (GoLine.done 0)))

theorem ParseGo_nodes_sentinel_witness :
    ∃ g, ParseGoParams Side.WC 100 " wtime 1000 nodes 77 depth 3".toList = some g
      ∧ g.move_nodes = atoi "77".toList ∧ g.move_time = 99999999 :=
  (ParseGo_nodes_sentinel Side.WC 100 [GoArg.param .wtime "1000".toList]
    [GoArg.param .depth "3".toList] "77".toList _ goLine_wtime_nodes (by decide) (by decide)).1

/-- C9: when the line specifies `depth N` and neither `movetime` nor `nodes`,
then after parsing `search_depth` is `N`, `move_time` keeps its initial value
-1 and `move_nodes` is 0, whatever clock parameters the line holds. -/
theorem ParseGo_depth_alone (side : Side) (P : Int) (pre post : List GoArg)
    (s line : List Char)
    (h : GoLine (pre ++ GoArg.param .depth s :: post) line)
    (hpost : ∀ a ∈ post, a.key ≠ some .depth)
    (hno : ∀ a ∈ pre ++ GoArg.param .depth s :: post,
      a.key ≠ some .movetime ∧ a.key ≠ some .nodes) :
    ∃ g, ParseGoParams side P line = some g ∧ g.search_depth = atoi s
      ∧ g.move_time = -1 ∧ g.move_nodes = 0 := by
  have hs : ((pre ++ GoArg.param .depth s :: post).foldl applyArg goInit).strict_time = 1 :=
    foldl_strict_of_mem _ goInit ⟨GoArg.param .depth s, by simp, rfl⟩
  refine ⟨_, by rw [ParseGoParams_of_GoLine h, goSetMoveTime_strict _ _ _ hs], ?_, ?_, ?_⟩
  · rw [(foldl_lastValue _ goInit).2.2.2.2.2.1, lastValue_append_param .depth s pre post hpost]
  · rw [(foldl_keep _ goInit).1 hno]
    rfl
  · rw [(foldl_lastValue _ goInit).2.2.2.2.2.2,
      lastValue_absent .nodes _ _ (fun a ha => (hno a ha).2)]
    rfl

theorem goLine_btime_depth :
    GoLine [GoArg.param .btime "300".toList, GoArg.param .depth "9".toList,
        GoArg.lone kwPonder]
      " btime 300 depth 9 ponder".toList :=
  GoLine.param 0 0 .btime "300".toList _ _ ⟨by decide, by decide⟩
    (GoLine.param 0 0 .depth "9".toList _ _ ⟨by decide, by decide⟩
      (GoLine.lone 0 kwPonder _ _ ⟨by decide, by decide⟩
        (fun k => by cases k <;> decide) (GoLine.done 0)))

theorem ParseGo_depth_alone_witness :
    ∃ g, ParseGoParams Side.BC 100 " btime 300 depth 9 ponder".toList = some g
      ∧ g.search_depth = atoi "9".toList ∧ g.move_time = -1 ∧ g.move_nodes = 0 :=
  ParseGo_depth_alone Side.BC 100 [GoArg.param .btime "300".toList] [GoArg.lone kwPonder]
    "9".toList _ goLine_btime_depth (by decide) (by decide)

/-- The parameter stage with the planner in `int` arithmetic, on a line that
spells the items `args`. -/
theorem ParseGoParams32_of_GoLine {args : List GoArg} {line : List Char}
    (h : GoLine args line) (side : Side) (P : Int) :
    ParseGoParams32 side P line = goSetMoveTime32 side P (args.foldl applyArg goInit) := by
  simp [ParseGoParams32, ParseGoLoop_of_GoLine h (line.length + 1) goInit (Nat.lt_succ_self _)]

/-- With a divisor other than 0 and -1 the division of the planner does not
trap: `SetMoveTime` has a result. -/
theorem SetMoveTime32_total (P mt base inc movestogo : Int) (hm : movestogo ≠ 0)
    (hm1 : movestogo ≠ -1) :
    ∃ t, SetMoveTime32 P mt base inc movestogo = some t := by
  by_cases hb : 0 ≤ base
  · simp [SetMoveTime32, cdiv32, hb, hm, hm1]
  · exact ⟨mt, by simp [SetMoveTime32, hb]⟩

/-- The two divisions that trap: `go wtime 1000 movestogo 0` divides by zero,
`go wtime 0 winc 1073741824 movestogo -1` divides `INT_MIN` by -1. -/
theorem ParseGoParams32_traps :
    ParseGoParams32 Side.WC 100 " wtime 1000 movestogo 0".toList = none
      ∧ ParseGoParams32 Side.WC 100 " wtime 0 winc 1073741824 movestogo -1".toList = none := by
  decide

/-- C10: when the line holds none of `depth`, `movetime`, `nodes`, the
budget after parsing is `SetMoveTime` applied to the clock, the increment and
the `movestogo` of the side to move (`wtime`, `winc` for white, `btime`,
`binc` for black), an absent increment counting as 0 and an absent
`movestogo` as 40; when the clock of the side to move is absent the budget
stays at -1.  The planner is the one in `int` arithmetic; the stage has a
result whenever `movestogo` is neither 0 nor -1 (the division cannot trap). -/
theorem ParseGo_clock_budget (side : Side) (P : Int) (args : List GoArg) (line : List Char)
    (h : GoLine args line) (hns : ∀ a ∈ args, a.isStrict = false) :
    (ParseGoParams32 side P line).map GoVars.move_time
        = SetMoveTime32 P (-1) (lastValue side.timeKey (-1) args) (lastValue side.incKey 0 args)
            (lastValue .movestogo 40 args)
      ∧ ((∀ a ∈ args, a.key ≠ some side.timeKey) →
          (ParseGoParams32 side P line).map GoVars.move_time = some (-1))
      ∧ (lastValue .movestogo 40 args ≠ 0 → lastValue .movestogo 40 args ≠ -1 →
          ∃ g, ParseGoParams32 side P line = some g) := by
  have hkey : ∀ a ∈ args, a.key ≠ some .movetime ∧ a.key ≠ some .nodes := by
    intro a ha
    have := hns a ha
    cases a with
    | lone t => simp [GoArg.key]
    | param k s => cases k <;> simp_all [GoArg.key, GoArg.isStrict, GoKey.isStrict]
  have hst : (args.foldl applyArg goInit).strict_time = 0 := (foldl_keep args goInit).2 hns
  have hmt : (args.foldl applyArg goInit).move_time = -1 := (foldl_keep args goInit).1 hkey
  obtain ⟨hw, hb, hwi, hbi, hmg, -, -⟩ := foldl_lastValue args goInit
  have hbase : (if side = Side.WC then (args.foldl applyArg goInit).wtime
      else (args.foldl applyArg goInit).btime) = lastValue side.timeKey (-1) args := by
    cases side
    · simpa [Side.timeKey] using hw
    · simpa [Side.timeKey] using hb
  have hinc : (if side = Side.WC then (args.foldl applyArg goInit).winc
      else (args.foldl applyArg goInit).binc) = lastValue side.incKey 0 args := by
    cases side
    · simpa [Side.incKey] using hwi
    · simpa [Side.incKey] using hbi
  have hmain : (ParseGoParams32 side P line).map GoVars.move_time
      = SetMoveTime32 P (-1) (lastValue side.timeKey (-1) args) (lastValue side.incKey 0 args)
          (lastValue .movestogo 40 args) := by
    rw [ParseGoParams32_of_GoLine h]
    unfold goSetMoveTime32
    rw [if_pos hst]
    simp only [hbase, hinc, hmt, hmg]
    have hgen : ∀ (o : Option Int) (f : Int → GoVars), (∀ mt, (f mt).move_time = mt) →
        (o.bind (fun mt => some (f mt))).map GoVars.move_time = o := by
      intro o f hf
      cases o with
      | none => rfl
      | some t => simp [hf]
    exact hgen _ _ (fun _ => rfl)
  refine ⟨hmain, ?_, ?_⟩
  · intro habs
    rw [hmain, lastValue_absent _ _ _ habs]
    simp [SetMoveTime32]
  · intro hne hne1
    obtain ⟨t, ht⟩ := SetMoveTime32_total P (-1) (lastValue side.timeKey (-1) args)
      (lastValue side.incKey 0 args) (lastValue .movestogo 40 args) hne hne1
    rw [← hmain] at ht
    cases hp : ParseGoParams32 side P line with
    | none => rw [hp] at ht; simp at ht
    | some g => exact ⟨g, rfl⟩

theorem goLine_clock_only :
    GoLine [GoArg.param .wtime "60000".toList, GoArg.param .btime "10".toList,
        GoArg.param .winc "0".toList]
      " wtime 60000 btime 10 winc 0".toList :=
  GoLine.param 0 0 .wtime "60000".toList _ _ ⟨by decide, by decide⟩
    (GoLine.param 0 0 .btime "10".toList _ _ ⟨by decide, by decide⟩
      (GoLine.param 0 0 .winc "0".toList _ _ ⟨by decide, by decide⟩ (GoLine.done 0)))

theorem ParseGo_clock_budget_witness :
    (ParseGoParams32 Side.WC 100 " wtime 60000 btime 10 winc 0".toList).map GoVars.move_time
      = some 1490 :=
  (ParseGo_clock_budget Side.WC 100 _ _ goLine_clock_only (by decide)).1.trans (by decide)

/-! ## Claims on the second half of `ParseGo` -/

/-- What the aggregation loop returns: `best_depth` only grows, it bounds every
depth seen, and either no engine beat the start value (the pair is unchanged)
or `best_pv` points to the first engine that has the final `best_depth`. -/
theorem bestLoop_spec (l : List Int) : ∀ (k : Nat) (bd : Int) (bp : Option Nat),
    (∀ d ∈ l, d ≤ (bestLoop l k (bd, bp)).1)
      ∧ ((bestLoop l k (bd, bp) = (bd, bp) ∧ ∀ d ∈ l, d ≤ bd)
        ∨ ∃ j, (bestLoop l k (bd, bp)).2 = some (k + j)
            ∧ l[j]? = some (bestLoop l k (bd, bp)).1
            ∧ bd < (bestLoop l k (bd, bp)).1
            ∧ ∀ (j2 : Nat) (d : Int), j2 < j → l[j2]? = some d → d < (bestLoop l k (bd, bp)).1) := by
  induction l with
  | nil =>
    intro k bd bp
    exact ⟨by simp, Or.inl ⟨rfl, by simp⟩⟩
  | cons d rest ih =>
    intro k bd bp
    by_cases hlt : bd < d
    · have hr : bestLoop (d :: rest) k (bd, bp) = bestLoop rest (k + 1) (d, some k) := by
        simp [bestLoop, hlt]
      rw [hr]
      obtain ⟨hall, hcase⟩ := ih (k + 1) d (some k)
      rcases hcase with ⟨heq, hle⟩ | ⟨j, hj, hget, hgt, hfirst⟩
      · refine ⟨?_, Or.inr ⟨0, ?_, ?_, ?_, ?_⟩⟩
        · intro e he
          rcases List.mem_cons.mp he with rfl | he2
          · rw [heq]
          · exact hall e he2
        · rw [heq]; rfl
        · rw [heq]; simp
        · rw [heq]; exact hlt
        · intro j2 e hj2; omega
      · refine ⟨?_, Or.inr ⟨j + 1, ?_, ?_, ?_, ?_⟩⟩
        · intro e he
          rcases List.mem_cons.mp he with rfl | he2
          · exact le_of_lt hgt
          · exact hall e he2
        · rw [hj]; congr 1; omega
        · rw [List.getElem?_cons_succ]; exact hget
        · exact lt_trans hlt hgt
        · intro j2 e hj2 hge
          cases j2 with
          | zero =>
            rw [List.getElem?_cons_zero] at hge
            cases hge
            exact hgt
          | succ j3 =>
            rw [List.getElem?_cons_succ] at hge
            exact hfirst j3 e (by omega) hge
    · have hr : bestLoop (d :: rest) k (bd, bp) = bestLoop rest (k + 1) (bd, bp) := by
        simp [bestLoop, hlt]
      rw [hr]
      obtain ⟨hall, hcase⟩ := ih (k + 1) bd bp
      rcases hcase with ⟨heq, hle⟩ | ⟨j, hj, hget, hgt, hfirst⟩
      · refine ⟨?_, Or.inl ⟨heq, ?_⟩⟩
        · intro e he
          rcases List.mem_cons.mp he with rfl | he2
          · rw [heq]; exact not_lt.mp hlt
          · exact hall e he2
        · intro e he
          rcases List.mem_cons.mp he with rfl | he2
          · exact not_lt.mp hlt
          · exact hle e he2
      · refine ⟨?_, Or.inr ⟨j + 1, ?_, ?_, hgt, ?_⟩⟩
        · intro e he
          rcases List.mem_cons.mp he with rfl | he2
          · exact le_of_lt (lt_of_le_of_lt (not_lt.mp hlt) hgt)
          · exact hall e he2
        · rw [hj]; congr 1; omega
        · rw [List.getElem?_cons_succ]; exact hget
        · intro j2 e hj2 hge
          cases j2 with
          | zero =>
            rw [List.getElem?_cons_zero] at hge
            cases hge
            exact lt_of_le_of_lt (not_lt.mp hlt) hgt
          | succ j3 =>
            rw [List.getElem?_cons_succ] at hge
            exact hfirst j3 e (by omega) hge

/-- C11: for a non-empty list of engines with non-negative completed depths
the engine whose `pv` is emitted has the greatest completed depth, and every
engine before it has a smaller one (the lowest index among the deepest); for
the depths 5, 7, 7, 3 it is the engine of index 1. -/
theorem selectBest_first_deepest (dps : List Int) (hne : dps ≠ [])
    (hnn : ∀ d ∈ dps, 0 ≤ d) :
    (∃ (i : Nat) (best : Int), selectBest dps = some i ∧ dps[i]? = some best
        ∧ (∀ (j : Nat) (d : Int), dps[j]? = some d → d ≤ best)
        ∧ (∀ (j : Nat) (d : Int), j < i → dps[j]? = some d → d < best))
      ∧ selectBest [5, 7, 7, 3] = some 1 := by
  refine ⟨?_, by decide⟩
  obtain ⟨hall, hcase⟩ := bestLoop_spec dps 0 (-1) none
  rcases hcase with ⟨-, hle⟩ | ⟨j, hj, hget, -, hfirst⟩
  · obtain ⟨d, hd⟩ := List.exists_mem_of_ne_nil dps hne
    have h1 := hle d hd
    have h2 := hnn d hd
    omega
  · refine ⟨j, _, ?_, hget, ?_, hfirst⟩
    · simpa [selectBest] using hj
    · intro j2 d hd
      exact hall d (List.getElem?_mem hd)

theorem selectBest_first_deepest_witness :
    ∃ (i : Nat) (best : Int), selectBest [2, 9, 4, 9] = some i ∧ [2, 9, 4, (9 : Int)][i]? = some best
      ∧ (∀ (j : Nat) (d : Int), [2, 9, 4, (9 : Int)][j]? = some d → d ≤ best)
      ∧ (∀ (j : Nat) (d : Int), j < i → [2, 9, 4, (9 : Int)][j]? = some d → d < best) :=
  (selectBest_first_deepest [2, 9, 4, 9] (by decide) (by decide)).1

theorem goBook_cases (env : GoEnv) :
    (env.guide ≠ 0 → goBook env
        = [GoEvent.info env.book_depth env.moves_from_start, GoEvent.GuideBook,
            GoEvent.bestmove env.guide])
      ∧ (env.guide = 0 → env.main ≠ 0 → goBook env
        = [GoEvent.info env.book_depth env.moves_from_start, GoEvent.GuideBook,
            GoEvent.MainBook, GoEvent.bestmove env.main])
      ∧ (env.guide = 0 → env.main = 0 → env.internal ≠ 0 → goBook env
        = [GoEvent.info env.book_depth env.moves_from_start, GoEvent.GuideBook,
            GoEvent.MainBook, GoEvent.InternalBook, GoEvent.bestmove env.internal])
      ∧ (env.guide = 0 → env.main = 0 → env.internal = 0 → goBook env
        = [GoEvent.info env.book_depth env.moves_from_start, GoEvent.GuideBook,
            GoEvent.MainBook, GoEvent.InternalBook] ++ goSearch env) := by
  refine ⟨?_, ?_, ?_, ?_⟩
  · intro h; simp [goBook, h]
  · intro h1 h2; simp [goBook, h1, h2]
  · intro h1 h2 h3; simp [goBook, h1, h2, h3]
  · intro h1 h2 h3; simp [goBook, h1, h2, h3]

theorem goHead_no_book_no_search (env : GoEnv) :
    ∀ e ∈ goHead env, e.isBook = false ∧ e.isSearch = false := by
  intro e he
  unfold goHead at he
  split at he <;> simp at he <;> rcases he with rfl | rfl <;> exact ⟨rfl, rfl⟩

theorem goSearch_no_book (env : GoEnv) : ∀ e ∈ goSearch env, e.isBook = false := by
  intro e he
  simp only [goSearch, List.mem_append, List.mem_map, List.mem_singleton] at he
  rcases he with (((⟨i, -, rfl⟩ | rfl) | ⟨i, -, rfl⟩) | rfl) | rfl <;> rfl

theorem ParseGoTail_open (env : GoEnv) (hb : env.use_book = true)
    (hd : env.moves_from_start ≤ env.book_depth) :
    ParseGoTail env = goHead env ++ goBook env := by
  simp [ParseGoTail, hb, hd]

theorem ParseGoTail_closed (env : GoEnv)
    (h : ¬ (env.use_book = true ∧ env.moves_from_start ≤ env.book_depth)) :
    ParseGoTail env = goHead env ++ goSearch env := by
  unfold ParseGoTail
  rw [if_neg]
  simpa using h

theorem guideBook_mem_goBook (env : GoEnv) : GoEvent.GuideBook ∈ goBook env := by
  obtain ⟨h1, h2, h3, h4⟩ := goBook_cases env
  by_cases hg : env.guide = 0
  · by_cases hm : env.main = 0
    · by_cases hi : env.internal = 0
      · rw [h4 hg hm hi]; simp
      · rw [h3 hg hm hi]; simp
    · rw [h2 hg hm]; simp
  · rw [h1 hg]; simp

/-- C12: when the book is consulted (book usage on, plies within the book
depth) the sources are asked in the order guide book, main book, internal
book, and the first non-zero answer ends the command: the events are the
queries up to that source and the `bestmove` line of its move, no later source
is queried and no think thread or timer is started. -/
theorem ParseGo_book_short_circuit (env : GoEnv) (hb : env.use_book = true)
    (hd : env.moves_from_start ≤ env.book_depth) :
    (env.guide ≠ 0 → ParseGoTail env = goHead env
        ++ [GoEvent.info env.book_depth env.moves_from_start, GoEvent.GuideBook,
            GoEvent.bestmove env.guide])
      ∧ (env.guide = 0 → env.main ≠ 0 → ParseGoTail env = goHead env
        ++ [GoEvent.info env.book_depth env.moves_from_start, GoEvent.GuideBook,
            GoEvent.MainBook, GoEvent.bestmove env.main])
      ∧ (env.guide = 0 → env.main = 0 → env.internal ≠ 0 → ParseGoTail env = goHead env
        ++ [GoEvent.info env.book_depth env.moves_from_start, GoEvent.GuideBook,
            GoEvent.MainBook, GoEvent.InternalBook, GoEvent.bestmove env.internal])
      ∧ ((env.guide ≠ 0 ∨ env.main ≠ 0 ∨ env.internal ≠ 0) →
          ∀ e ∈ ParseGoTail env, e.isSearch = false) := by
  obtain ⟨h1, h2, h3, -⟩ := goBook_cases env
  have ho := ParseGoTail_open env hb hd
  refine ⟨fun hg => by rw [ho, h1 hg], fun hg hm => by rw [ho, h2 hg hm],
    fun hg hm hi => by rw [ho, h3 hg hm hi], ?_⟩
  intro hany e he
  rw [ho, List.mem_append] at he
  rcases he with he | he
  · exact (goHead_no_book_no_search env e he).2
  · by_cases hg : env.guide = 0
    · by_cases hm : env.main = 0
      · have hi : env.internal ≠ 0 := by
          rcases hany with h | h | h
          · exact absurd hg h
          · exact absurd hm h
          · exact h
        rw [h3 hg hm hi] at he
        simp at he
        rcases he with rfl | rfl | rfl | rfl | rfl <;> rfl
      · rw [h2 hg hm] at he
        simp at he
        rcases he with rfl | rfl | rfl | rfl <;> rfl
    · rw [h1 hg] at he
      simp at he
      rcases he with rfl | rfl | rfl <;> rfl

theorem ParseGo_book_short_circuit_witness :
    ParseGoTail
        { use_book := true, book_depth := 10, moves_from_start := 3, should_clear := false,
          guide := 796, main := 0, internal := 55, dp_completed := [0, 0] }
      = [GoEvent.InitAsymmetric, GoEvent.info 10 3, GoEvent.GuideBook, GoEvent.bestmove 796] :=
  (ParseGo_book_short_circuit
    { use_book := true, book_depth := 10, moves_from_start := 3, should_clear := false,
      guide := 796, main := 0, internal := 55, dp_completed := [0, 0] }
    rfl (by decide)).1 (by decide)

/-- C13: `ParseGo` queries a book source if and only if `Par.use_book` is true
and `Glob.moves_from_start <= Par.book_depth`; when one of the two fails, no
source is queried and the command goes on to the search. -/
theorem ParseGo_book_gate (env : GoEnv) :
    ((∃ e ∈ ParseGoTail env, e.isBook = true)
        ↔ (env.use_book = true ∧ env.moves_from_start ≤ env.book_depth))
      ∧ (¬ (env.use_book = true ∧ env.moves_from_start ≤ env.book_depth) →
          ParseGoTail env = goHead env ++ goSearch env
            ∧ ∀ e ∈ ParseGoTail env, e.isBook = false) := by
  have hclosed : ¬ (env.use_book = true ∧ env.moves_from_start ≤ env.book_depth) →
      ParseGoTail env = goHead env ++ goSearch env
        ∧ ∀ e ∈ ParseGoTail env, e.isBook = false := by
    intro h
    refine ⟨ParseGoTail_closed env h, ?_⟩
    intro e he
    rw [ParseGoTail_closed env h, List.mem_append] at he
    rcases he with he | he
    · exact (goHead_no_book_no_search env e he).1
    · exact goSearch_no_book env e he
  refine ⟨⟨?_, ?_⟩, hclosed⟩
  · rintro ⟨e, he, hbook⟩
    by_contra h
    have := (hclosed h).2 e he
    rw [this] at hbook
    exact Bool.noConfusion hbook
  · rintro ⟨hb, hd⟩
    refine ⟨GoEvent.GuideBook, ?_, rfl⟩
    rw [ParseGoTail_open env hb hd]
    exact List.mem_append_right _ (guideBook_mem_goBook env)

theorem ParseGo_book_gate_witness :
    ParseGoTail
        { use_book := true, book_depth := 10, moves_from_start := 11, should_clear := false,
          guide := 796, main := 0, internal := 55, dp_completed := [4] }
      = [GoEvent.InitAsymmetric, GoEvent.StartThinkThread 0, GoEvent.timerStart,
          GoEvent.WaitThinkThread 0, GoEvent.timerJoin, GoEvent.ExtractMove (some 0)] :=
  ((ParseGo_book_gate
    { use_book := true, book_depth := 10, moves_from_start := 11, should_clear := false,
      guide := 796, main := 0, internal := 55, dp_completed := [4] }).2
    (by decide)).1.trans (by decide)

/-! ## Claims on the cancellation flag -/

/-- C15 (fails on the code): the first statement of the timer task writes
false to `Glob.abort_search`, although `ParseGo` has cleared the flag before
it started the threads; when a worker raises the flag after `ParseGo` started
it and before the timer task runs, the flag goes from true back to false, and
the timer task, instead of returning, goes on to sleep and poll. -/
theorem timer_task_clears_flag :
    (timer_task false false { abort_search := true, pc := TimerPc.entry }).abort_search = false
      ∧ (episodeRun false episodeStart [EpisodeAction.worker 0 true]).abort_search = true
      ∧ (episodeRun false episodeStart
          [EpisodeAction.worker 0 true, EpisodeAction.timer false]).abort_search = false
      ∧ (episodeRun false episodeStart
          [EpisodeAction.worker 0 true, EpisodeAction.timer false, EpisodeAction.timer false]).pc
        = TimerPc.sleep := by
  decide

/-! ## `ParseMoves` and `ParsePosition` on spelled-out lines -/

theorem wordLine_blankStart {ws : List (List Char)} {line : List Char} (h : WordLine ws line) :
    BlankStart line := by
  cases h with
  | done n => exact blankStart_blanks n
  | word n w ws rest _ _ =>
    rw [List.append_assoc]; exact blankStart_blanks_append n _

theorem ParseMovesLoop_word {β : Type} (c : Chess β) (fuel n : Nat) (s : Session β)
    (m rest : List Char) (hm : IsWord m) (hr : BlankStart rest) :
    ParseMovesLoop c (fuel + 1) s (blanks n ++ (m ++ rest))
      = ParseMovesLoop c fuel (playMove c s m) rest := by
  rw [ParseMovesLoop, ParseToken_word n m rest hm hr]
  simp only [if_neg hm.1]
  rfl

/-- On a line that spells the moves `ms` the move loop ends, having played the
moves one after the other. -/
theorem ParseMovesLoop_of_WordLine {β : Type} (c : Chess β) {ms : List (List Char)}
    {line : List Char} (h : WordLine ms line) :
    ∀ (fuel : Nat) (s : Session β), line.length < fuel →
      ParseMovesLoop c fuel s line = some (ms.foldl (playMove c) s) := by
  induction h with
  | done n =>
    intro fuel s hf
    cases fuel with
    | zero => omega
    | succ f => simp [ParseMovesLoop, ParseToken_blanks]
  | word n w ws rest hw hrest ih =>
    intro fuel s hf
    cases fuel with
    | zero => omega
    | succ f =>
      rw [List.append_assoc, ParseMovesLoop_word c f (n + 1) s w rest hw (wordLine_blankStart hrest)]
      rw [ih f _ (by simp only [List.length_append, blanks, List.length_replicate] at hf; omega)]
      rfl

theorem ParseMoves_of_WordLine {β : Type} (c : Chess β) {ms : List (List Char)}
    {line : List Char} (h : WordLine ms line) (s : Session β) :
    ParseMoves c s line = some (ms.foldl (playMove c) s) :=
  ParseMovesLoop_of_WordLine c h _ s (Nat.lt_succ_self _)

/-- Right after a move that leaves `rev_moves` at 0 the head is 0. -/
theorem playMove_truncates {β : Type} (c : Chess β) (s : Session β) (m : List Char) :
    (playMove c s m).p.rev_moves = 0 → (playMove c s m).p.head = 0 := by
  unfold playMove
  by_cases h : (c.DoMove s.p (c.StrToMove s.p m)).rev_moves = 0
  · simp [h]
  · simp [h]

theorem playMove_head_le {β : Type} (c : Chess β)
    (hpush : ∀ (p : POS β) (m : Int), (c.DoMove p m).head ≤ p.head + 1)
    (s : Session β) (m : List Char) :
    (playMove c s m).p.head ≤ max s.p.head 0 + 1 := by
  unfold playMove
  have h1 := hpush s.p (c.StrToMove s.p m)
  by_cases h : (c.DoMove s.p (c.StrToMove s.p m)).rev_moves = 0
  · simp only [h, if_true]
    have := le_max_right s.p.head 0
    omega
  · simp only [h, if_false]
    have := le_max_left s.p.head 0
    omega

theorem foldl_playMove_head_le {β : Type} (c : Chess β)
    (hpush : ∀ (p : POS β) (m : Int), (c.DoMove p m).head ≤ p.head + 1)
    (ms : List (List Char)) : ∀ s : Session β,
    (ms.foldl (playMove c) s).p.head ≤ max s.p.head 0 + ms.length := by
  induction ms with
  | nil => intro s; simp
  | cons m rest ih =>
    intro s
    rw [List.foldl_cons]
    have h1 := ih (playMove c s m)
    have h2 := playMove_head_le c hpush s m
    have h3 : max (playMove c s m).p.head 0 ≤ max s.p.head 0 + 1 := by
      have := le_max_right s.p.head 0
      exact max_le h2 (by omega)
    simp only [List.length_cons]
    push_cast
    omega

/-- C16: `ParseMoves` plays the moves of the line one after the other, and
right after each move that leaves `p->rev_moves` at 0 the head `p->head` is 0;
so, `DoMove` pushing at most one history entry per move, when `ParseMoves`
returns the head counts at most the moves played after the last such move: no
move played up to it remains to be taken back. -/
theorem ParseMoves_truncates_history {β : Type} (c : Chess β) (s : Session β)
    (ms : List (List Char)) (line : List Char) (h : WordLine ms line) :
    ParseMoves c s line = some (ms.foldl (playMove c) s)
      ∧ (∀ pre post : List (List Char), ms = pre ++ post → pre ≠ [] →
          (pre.foldl (playMove c) s).p.rev_moves = 0 → (pre.foldl (playMove c) s).p.head = 0)
      ∧ ((∀ (p : POS β) (m : Int), (c.DoMove p m).head ≤ p.head + 1) →
          ∀ pre post : List (List Char), ms = pre ++ post → pre ≠ [] →
          (pre.foldl (playMove c) s).p.rev_moves = 0 →
          (ms.foldl (playMove c) s).p.head ≤ post.length) := by
  have hinv : ∀ pre : List (List Char), pre ≠ [] →
      (pre.foldl (playMove c) s).p.rev_moves = 0 → (pre.foldl (playMove c) s).p.head = 0 := by
    intro pre hpre
    obtain ⟨init, m, rfl⟩ := (List.eq_nil_or_concat pre).resolve_left hpre
    rw [List.concat_eq_append, List.foldl_append]
    exact playMove_truncates c _ m
  refine ⟨ParseMoves_of_WordLine c h s, fun pre post _ hpre h0 => hinv pre hpre h0, ?_⟩
  intro hpush pre post hms hpre h0
  have hhead := hinv pre hpre h0
  have hle := foldl_playMove_head_le c hpush post (pre.foldl (playMove c) s)
  rw [hms, List.foldl_append]
  rw [hhead] at hle
  simpa using hle

theorem wordLine_1_2_3 :
    WordLine ["1".toList, "2".toList, "3".toList] " 1 2  3 ".toList :=
  WordLine.word 0 "1".toList _ _ ⟨by decide, by decide⟩
    (WordLine.word 0 "2".toList _ _ ⟨by decide, by decide⟩
      (WordLine.word 1 "3".toList _ _ ⟨by decide, by decide⟩ (WordLine.done 1)))

theorem ParseMoves_truncates_history_witness :
    (ParseMoves logChess logSession " 1 2  3 ".toList).map
        (fun s => (s.p.rev_moves, s.p.head, s.p.board, s.moves_from_start))
        = some (1, 1, [1, 2, 3], 3)
      ∧ (["1".toList, "2".toList, "3".toList].foldl (playMove logChess) logSession).p.head
        ≤ ["3".toList].length :=
  ⟨by rw [(ParseMoves_truncates_history logChess logSession _ _ wordLine_1_2_3).1]; rfl,
    (ParseMoves_truncates_history logChess logSession _ _ wordLine_1_2_3).2.2
      (fun p m => by simp [logChess]) ["1".toList, "2".toList] ["3".toList] rfl (by decide)
      (by decide)⟩

/-- C17 (fails on the code): on `position fen` followed by a FEN of 88
characters (six fields) the string of the fields, each followed by one blank,
has 89 characters; it is what `SetPosition` is to receive, but `ParsePosition`
collects it in `char fen[80]` with `strcat` and writes past the array before
`SetPosition` is called, also when moves follow. -/
theorem ParsePosition_fen_overrun :
    longFen.length = 88
      ∧ (ParsePosition logChess logSession (" fen ".toList ++ longFen)).map
          (fun s => s.p.board) = some [89]
      ∧ (fenLoopBuf 90 [] (' ' :: longFen)).isOverrun = true
      ∧ (ParsePositionBuf logChess logSession (" fen ".toList ++ longFen)).isOverrun = true
      ∧ (ParsePositionBuf logChess logSession
          (" fen ".toList ++ longFen ++ " moves 1 2".toList)).isOverrun = true
      ∧ ((ParsePositionBuf logChess logSession " fen 8/8 w - - moves 1 2".toList).get?.map
          (fun s => (s.p.board, s.moves_from_start))) = some ([10, 1, 2], 2) := by
  decide

/-! ## Claims on `UciLoop` and `bench` -/

/-- C14 as stated fails: on the line `xyz setoption name UseBook value true`
the first token `xyz` is no command word, and yet the round sets
`Par.use_book` from false to true (the raw substring test on the whole line
comes before the command word is looked at). -/
theorem UciLoop_unknown_word_sets_option :
    (ParseToken "xyz setoption name UseBook value true".toList).1 = "xyz".toList
      ∧ "xyz".toList ∉ commandWords
      ∧ logWorld.use_book = false
      ∧ (UciLoopRound logCalls "xyz setoption name UseBook value true".toList
          logWorld).get?.map (fun o => o.world.use_book) = some true := by
  decide

/-- `strstr` finds the needle exactly when it is a contiguous part of the
haystack. -/
theorem strstr_iff_infix (haystack needle : List Char) :
    strstr haystack needle = true ↔ needle <:+: haystack := by
  induction haystack with
  | nil => simp [strstr, List.isEmpty_iff]
  | cons c cs ih =>
    rw [strstr, Bool.or_eq_true, List.isPrefixOf_iff_prefix, ih, List.infix_cons_iff]

/-- What the four raw substring tests leave: each of the two options is set to
"the line contains `value true`" when the line contains one of the two
spellings of its `setoption` text, and is left alone otherwise; nothing else
changes. -/
theorem rawOptions_eq {σ : Type} (command : List Char) (w : UciWorld σ) :
    rawOptions command w
      = { w with
          fl_weakening :=
            if strstr command optLimitStrength || strstr command optLimitStrengthLower
            then strstr command valueTrue else w.fl_weakening,
          use_book :=
            if strstr command optUseBook || strstr command optUseBookLower
            then strstr command valueTrue else w.use_book } := by
  unfold rawOptions
  cases strstr command optLimitStrength <;> cases strstr command optLimitStrengthLower <;>
    cases strstr command optUseBook <;> cases strstr command optUseBookLower <;> rfl

/-- C14 (amended): on a line whose first token has fewer than 80 characters
and is none of the command words, one round of `UciLoop` calls nothing (no
output, the position and every other configuration value stay as they are)
and only makes the raw substring tests: `Par.fl_weakening` is set to "the line
contains `value true`" when the line contains
`setoption name UCI_LimitStrength value` or
`setoption name uci_limitstrength value`, `Par.use_book` likewise for
`setoption name UseBook value` or `setoption name usebook value`; on a line
with none of the four substrings the round changes nothing at all. -/
theorem UciLoop_ignores_unknown_word {σ : Type} (c : UciCalls σ) (command : List Char)
    (w : UciWorld σ) (hfit : (ParseToken command).1.length < 80)
    (hword : (ParseToken command).1 ∉ commandWords) :
    UciLoopRound c command w
        = Buffered.ok (UciOutcome.next
          { w with
            fl_weakening :=
              if strstr command optLimitStrength || strstr command optLimitStrengthLower
              then strstr command valueTrue else w.fl_weakening,
            use_book :=
              if strstr command optUseBook || strstr command optUseBookLower
              then strstr command valueTrue else w.use_book })
      ∧ (∀ needle : List Char, strstr command needle = true ↔ needle <:+: command)
      ∧ (strstr command optLimitStrength = false →
          strstr command optLimitStrengthLower = false →
          strstr command optUseBook = false →
          strstr command optUseBookLower = false →
          UciLoopRound c command w = Buffered.ok (UciOutcome.next w)) := by
  have hstep : UciLoopRound c command w = Buffered.ok (UciOutcome.next (rawOptions command w)) := by
    simp only [commandWords, List.mem_cons, List.mem_singleton, List.not_mem_nil, or_false,
      not_or] at hword
    obtain ⟨h1, h2, h3, h4, h5, h6, h7, h8, h9, h10, h11⟩ := hword
    unfold UciLoopRound UciStep
    generalize ParseToken command = pt at hfit h1 h2 h3 h4 h5 h6 h7 h8 h9 h10 h11 ⊢
    obtain ⟨token, ptr⟩ := pt
    dsimp only at hfit h1 h2 h3 h4 h5 h6 h7 h8 h9 h10 h11 ⊢
    have hlen : ¬ 80 ≤ token.length := by omega
    have hbench : ¬ (token = cmdBench ∧ 80 ≤ (ParseToken ptr).1.length) := fun h => h10 h.1
    rw [if_neg hlen, if_neg hbench, if_neg h1, if_neg h2, if_neg h3, if_neg h4, if_neg h5,
      if_neg h6, if_neg h7, if_neg h8, if_neg h9, if_neg h10, if_neg h11]
  refine ⟨by rw [hstep, rawOptions_eq], strstr_iff_infix command, ?_⟩
  intro h1 h2 h3 h4
  rw [hstep, rawOptions_eq, h1, h2, h3, h4]
  rfl

theorem UciLoop_ignores_unknown_word_witness :
    UciLoopRound logCalls "stop".toList logWorld = Buffered.ok (UciOutcome.next logWorld)
      ∧ UciLoopRound logCalls "xyz setoption name usebook value true".toList logWorld
        = Buffered.ok (UciOutcome.next { logWorld with use_book := true }) :=
  ⟨(UciLoop_ignores_unknown_word logCalls "stop".toList logWorld (by decide) (by decide)).2.2
      (by decide) (by decide) (by decide) (by decide),
    (UciLoop_ignores_unknown_word logCalls "xyz setoption name usebook value true".toList
      logWorld (by decide) (by decide)).1.trans rfl⟩

theorem UciStep_bench {σ : Type} (c : UciCalls σ) (n : Nat) (ptr : List Char)
    (w : UciWorld σ) (hp : BlankStart ptr) :
    UciStep c (blanks n ++ (cmdBench ++ ptr)) w
      = UciOutcome.next (c.Bench (atoi (ParseToken ptr).1)
          (rawOptions (blanks n ++ (cmdBench ++ ptr)) w)) := by
  unfold UciStep
  rw [ParseToken_word n cmdBench ptr ⟨by decide, by decide⟩ hp]
  have h1 : cmdBench ≠ cmdUci := by decide
  have h2 : cmdBench ≠ cmdUcinewgame := by decide
  have h3 : cmdBench ≠ cmdIsready := by decide
  have h4 : cmdBench ≠ cmdSetoption := by decide
  have h5 : cmdBench ≠ cmdSo := by decide
  have h6 : cmdBench ≠ cmdPosition := by decide
  have h7 : cmdBench ≠ cmdGo := by decide
  have h8 : cmdBench ≠ cmdPrint := by decide
  have h9 : cmdBench ≠ cmdStep := by decide
  dsimp only
  rw [if_neg h1, if_neg h2, if_neg h3, if_neg h4, if_neg h5, if_neg h6, if_neg h7, if_neg h8,
    if_neg h9, if_pos rfl]

/-- C18: the `bench` command runs the benchmark at depth 8 when it has no
argument and when its argument reads as 0, and at depth `N` when its argument
reads as the non-zero number `N`. -/
theorem bench_depth (ptr : List Char) :
    ((ParseToken ptr).1 = [] → benchDepth ptr = 8)
      ∧ (atoi (ParseToken ptr).1 = 0 → benchDepth ptr = 8)
      ∧ (atoi (ParseToken ptr).1 ≠ 0 → benchDepth ptr = atoi (ParseToken ptr).1)
      ∧ (∀ (σ : Type) (c : UciCalls σ) (n : Nat) (w : UciWorld σ), BlankStart ptr →
          UciStep c (blanks n ++ (cmdBench ++ ptr)) w
            = UciOutcome.next (c.Bench (atoi (ParseToken ptr).1)
                (rawOptions (blanks n ++ (cmdBench ++ ptr)) w)))
      ∧ benchDepth "".toList = 8 ∧ benchDepth " 0".toList = 8 ∧ benchDepth " x".toList = 8
      ∧ benchDepth " 12".toList = 12 := by
  refine ⟨?_, ?_, ?_, ?_, by decide, by decide, by decide, by decide⟩
  · intro h
    simp [benchDepth, cEngine.Bench, h, atoi, atoiDigits]
  · intro h
    simp [benchDepth, cEngine.Bench, h]
  · intro h
    simp [benchDepth, cEngine.Bench, h]
  · intro σ c n w hp
    exact UciStep_bench c n ptr w hp

theorem bench_depth_witness :
    benchDepth " 25 ".toList = atoi (ParseToken " 25 ".toList).1
      ∧ atoi (ParseToken " 25 ".toList).1 = 25 :=
  ⟨(bench_depth " 25 ".toList).2.2.1 (by decide), by decide⟩

/-! ## Claims on `ParseToken` and the token loops -/

/-- C19 as stated fails: only the blank separates tokens; a tab is neither
skipped in front nor does it end the token, so the token of the line
`<tab>go<tab>depth 5` is `<tab>go<tab>depth`, which contains tabs. -/
theorem ParseToken_keeps_tabs :
    ParseToken ['\t', 'g', 'o', '\t', 'd', 'e', 'p', 't', 'h', ' ', '5']
        = (['\t', 'g', 'o', '\t', 'd', 'e', 'p', 't', 'h'], [' ', '5'])
      ∧ '\t' ∈ (ParseToken ['\t', 'g', 'o', '\t', 'd', 'e', 'p', 't', 'h', ' ', '5']).1
      ∧ isspace '\t' = true := by
  decide

theorem dropWhile_blank_split (s : List Char) :
    ∃ n, s = blanks n ++ s.dropWhile (fun c => c == ' ')
      ∧ ∀ c r, s.dropWhile (fun c => c == ' ') = c :: r → c ≠ ' ' := by
  induction s with
  | nil => exact ⟨0, rfl, by simp⟩
  | cons a t ih =>
    by_cases ha : a = ' '
    · obtain ⟨n, h1, h2⟩ := ih
      subst ha
      refine ⟨n + 1, ?_, ?_⟩
      · simp only [List.dropWhile_cons, beq_self_eq_true, if_true, blanks, List.replicate_succ,
          List.cons_append, List.cons.injEq, true_and]
        exact h1
      · simpa using h2
    · refine ⟨0, ?_, ?_⟩
      · simp [blanks, ha]
      · intro c r h
        simp [ha] at h
        exact h.1 ▸ ha

theorem takeWhile_nonblank (d : List Char) :
    (∀ c ∈ d.takeWhile (fun c => c != ' '), c ≠ ' ')
      ∧ BlankStart (d.dropWhile (fun c => c != ' ')) := by
  constructor
  · intro c hc
    have := List.mem_takeWhile_imp hc
    simpa using this
  · induction d with
    | nil => intro c r h; simp at h
    | cons a t ih =>
      by_cases ha : a = ' '
      · subst ha
        intro c r h
        simp at h
        exact h.1.symm
      · intro c r h
        have hd : (a :: t).dropWhile (fun c => c != ' ') = t.dropWhile (fun c => c != ' ') := by
          simp [ha]
        rw [hd] at h
        exact ih c r h

/-- C19 (amended): the token `ParseToken` extracts is the first
blank-delimited word of the line: the blanks in front are skipped, the token
is the longest following run of characters other than the blank (it contains
no blank, it is followed by a blank or by the end of the line, and it is
empty only when nothing but blanks is left), and skipped blanks, token and
returned rest make up the line. -/
theorem ParseToken_first_word (s : List Char) :
    ∃ n, s = blanks n ++ (ParseToken s).1 ++ (ParseToken s).2
      ∧ (∀ c ∈ (ParseToken s).1, c ≠ ' ')
      ∧ BlankStart (ParseToken s).2
      ∧ ((ParseToken s).1 = [] → (ParseToken s).2 = []) := by
  obtain ⟨n, hs, hhead⟩ := dropWhile_blank_split s
  obtain ⟨htok, hrest⟩ := takeWhile_nonblank (s.dropWhile (fun c => c == ' '))
  refine ⟨n, ?_, htok, hrest, ?_⟩
  · simp only [ParseToken]
    rw [List.append_assoc, List.takeWhile_append_dropWhile]
    exact hs
  · intro hnil
    simp only [ParseToken] at hnil ⊢
    have hsplit := List.takeWhile_append_dropWhile (fun c => c != ' ')
      (s.dropWhile (fun c => c == ' '))
    rw [hnil, List.nil_append] at hsplit
    rw [hsplit]
    cases hd : s.dropWhile (fun c => c == ' ') with
    | nil => rfl
    | cons a t =>
      exfalso
      have hne := hhead a t hd
      rw [hd] at hnil
      simp [hne] at hnil

/-- With more fuel than the line has characters the move loop returns. -/
theorem ParseMovesLoop_total {β : Type} (c : Chess β) (fuel : Nat) :
    ∀ (s : Session β) (ptr : List Char), ptr.length < fuel →
      ∃ r, ParseMovesLoop c fuel s ptr = some r := by
  induction fuel with
  | zero => intro s ptr h; omega
  | succ f ih =>
    intro s ptr hlen
    have hlt := ParseToken_rest_lt ptr
    rw [ParseMovesLoop]
    generalize ParseToken ptr = pt at hlt ⊢
    obtain ⟨tok, r⟩ := pt
    dsimp only at hlt ⊢
    by_cases h0 : tok = []
    · exact ⟨s, if_pos h0⟩
    · rw [if_neg h0]
      exact ih _ r (by have := hlt h0; omega)

/-- With more fuel than the line has characters the FEN loop returns. -/
theorem fenLoop_total (fuel : Nat) :
    ∀ (fen ptr : List Char), ptr.length < fuel → ∃ r, fenLoop fuel fen ptr = some r := by
  induction fuel with
  | zero => intro fen ptr h; omega
  | succ f ih =>
    intro fen ptr hlen
    have hlt := ParseToken_rest_lt ptr
    rw [fenLoop]
    generalize ParseToken ptr = pt at hlt ⊢
    obtain ⟨tok, r⟩ := pt
    dsimp only at hlt ⊢
    by_cases h0 : tok = [] ∨ tok = kwMoves
    · exact ⟨_, if_pos h0⟩
    · rw [if_neg h0]
      refine ih _ r ?_
      have := hlt (fun h => h0 (Or.inl h))
      omega

/-- C20: a `ParseToken` call that yields a non-empty token returns a strictly
shorter rest, and so the parameter loop of `ParseGo`, the move loop of
`ParseMoves` and the FEN loop of `ParsePosition` each return within as many
rounds as the line has characters, plus one. -/
theorem token_loops_terminate :
    (∀ s : List Char, (ParseToken s).1 ≠ [] → (ParseToken s).2.length < s.length)
      ∧ (∀ (v : GoVars) (ptr : List Char), ∃ g, ParseGoLoop (ptr.length + 1) v ptr = some g)
      ∧ (∀ (β : Type) (c : Chess β) (s : Session β) (ptr : List Char),
          ∃ r, ParseMovesLoop c (ptr.length + 1) s ptr = some r)
      ∧ (∀ fen ptr : List Char, ∃ r, fenLoop (ptr.length + 1) fen ptr = some r) :=
  ⟨ParseToken_rest_lt,
    fun v ptr => ParseGoLoop_total _ v ptr (Nat.lt_succ_self _),
    fun _ c s ptr => ParseMovesLoop_total c _ s ptr (Nat.lt_succ_self _),
    fun fen ptr => fenLoop_total _ fen ptr (Nat.lt_succ_self _)⟩

theorem token_loops_terminate_witness :
    (ParseToken " wtime 1000".toList).2.length < " wtime 1000".toList.length :=
  token_loops_terminate.1 " wtime 1000".toList (by decide)

end Rodent
